import Mathlib

/-!
# Cookie attribute validators and `DeepDelete` (package `cookie`)

A shallow embedding of `cookie.go`.

* A Go `string` is a sequence of bytes: it is modelled as a `List Nat` whose
  elements are the byte values.  `bytes` turns a Lean string literal into
  its UTF-8 byte sequence.
* A `rune` is modelled as a `Nat`.
* Functions of the Go standard library used by the package (`strings.Split`,
  `strings.Join`, `strings.Count`, `strings.Contains`, `strings.IndexFunc`,
  `utf8.DecodeRuneInString`, `path.Dir`, `path.Clean`, `net.ParseIP`) are
  embedded from their Go sources under their Go names.  The IPv6 parser behind
  `net.ParseIP` is a parameter (`parseIPv6`): `ValidDomain` rejects every
  string that reaches it.
* Loops whose termination is not structural carry an iteration budget
  (`fuel`); their result is an `Outcome`, which tells a normal result from a
  run-time panic and from an exhausted budget.  The theorems give a budget
  that is always enough.
* `DeepDelete` is a function of the cookie name, `r.Host` and `r.URL.Path`;
  its result is the list of cookies it hands to `http.SetCookie`, in order.
-/

namespace CookiePkg

/-! ## Strings -/

/-- The UTF-8 bytes of a string literal, as Go stores it. -/
def bytes (s : String) : List Nat :=
  (s.data.flatMap String.utf8EncodeChar).map UInt8.toNat

/-- The result of running a piece of Go code: a value, a run-time panic, or
the iteration budget of the model was used up before the code finished. -/
inductive Outcome (α : Type) where
  | ok : α → Outcome α
  | panicked : Outcome α
  | outOfFuel : Outcome α
  deriving DecidableEq, Repr

/-! ## `isTokenTable`, `isNotToken`, `ValidName` -/

/-- `var isTokenTable = [127]bool{...}`: the array written out entry by entry,
index 0 first; an entry is `true` exactly where the literal of the source
(lines 16 to 92) names its index. -/
def isTokenTable : List Bool :=
  [
    false, false, false, false, false, false, false, false,  -- 0 .. 7
    false, false, false, false, false, false, false, false,  -- 8 .. 15
    false, false, false, false, false, false, false, false,  -- 16 .. 23
    false, false, false, false, false, false, false, false,  -- 24 .. 31
    false, true , false, true , true , true , true , true ,  -- 32 .. 39
    false, false, true , true , false, true , true , false,  -- 40 .. 47
    true , true , true , true , true , true , true , true ,  -- 48 .. 55
    true , true , false, false, false, false, false, false,  -- 56 .. 63
    false, true , true , true , true , true , true , true ,  -- 64 .. 71
    true , true , true , true , true , true , true , true ,  -- 72 .. 79
    true , true , true , true , true , true , true , true ,  -- 80 .. 87
    true , true , true , false, false, false, true , true ,  -- 88 .. 95
    true , true , true , true , true , true , true , true ,  -- 96 .. 103
    true , true , true , true , true , true , true , true ,  -- 104 .. 111
    true , true , true , true , true , true , true , true ,  -- 112 .. 119
    true , true , true , false, true , false, true    -- 120 .. 126
  ]

/-- `func isNotToken(r rune) bool`. -/
def isNotToken (r : Nat) : Bool :=
  decide (r ≥ isTokenTable.length) || !(isTokenTable.getD r false)

/-- `utf8.RuneError`. -/
def RuneError : Nat := 0xFFFD

/-- `utf8.DecodeRuneInString`: the first rune of `s` and its width in bytes.
The masks and shifts of the Go source are written arithmetically
(`x & 0x3F` is `x % 64`, `x << 6` is `x * 64`, and `|` of values with disjoint
bits is `+`).  The `first` and `acceptRanges` tables are unfolded into the
case analysis on the first byte `s0`: `sz` is the width and `lo`, `hi` the
accepted range of the second byte. -/
def DecodeRuneInString (s : List Nat) : Nat × Nat :=
  let n := s.length
  if n < 1 then (RuneError, 0) else
  let s0 := s.getD 0 0
  if s0 < 0x80 then (s0, 1) else                      -- ASCII
  if s0 < 0xC2 ∨ 0xF4 < s0 then (RuneError, 1) else   -- invalid first byte
  let sz : Nat := if s0 < 0xE0 then 2 else if s0 < 0xF0 then 3 else 4
  let lo : Nat := if s0 = 0xE0 then 0xA0 else if s0 = 0xF0 then 0x90 else 0x80
  let hi : Nat := if s0 = 0xED then 0x9F else if s0 = 0xF4 then 0x8F else 0xBF
  if n < sz then (RuneError, 1) else
  let s1 := s.getD 1 0
  if s1 < lo ∨ hi < s1 then (RuneError, 1) else
  if sz ≤ 2 then ((s0 % 32) * 64 + s1 % 64, 2) else
  let s2 := s.getD 2 0
  if s2 < 0x80 ∨ 0xBF < s2 then (RuneError, 1) else
  if sz ≤ 3 then ((s0 % 16) * 4096 + (s1 % 64) * 64 + s2 % 64, 3) else
  let s3 := s.getD 3 0
  if s3 < 0x80 ∨ 0xBF < s3 then (RuneError, 1) else
  ((s0 % 8) * 262144 + (s1 % 64) * 4096 + (s2 % 64) * 64 + s3 % 64, 4)

/-- The loop `for i, r := range s { if f(r) { return i } }; return -1` of
`strings.IndexFunc`.  `i` is the index of the head of the list in the whole
string; `skip` counts the bytes of the rune decoded last that are still to be
stepped over (a rune of width `w` advances the index by `w`). -/
def indexFuncFrom (f : Nat → Bool) : Nat → Nat → List Nat → Int
  | _, _, [] => -1
  | i, skip + 1, _ :: t => indexFuncFrom f (i + 1) skip t
  | i, 0, s0 :: t =>
    let d := DecodeRuneInString (s0 :: t)
    if f d.1 then (i : Int) else indexFuncFrom f (i + 1) (d.2 - 1) t

/-- `strings.IndexFunc(s, f)`: the index of the first rune satisfying `f`,
or `-1`. -/
def IndexFunc (s : List Nat) (f : Nat → Bool) : Int :=
  indexFuncFrom f 0 0 s

/-- `func ValidName(name string) bool`. -/
def ValidName (name : List Nat) : Bool :=
  if name = [] then false
  else decide (IndexFunc name isNotToken < 0)

/-! ## `ValidPath` -/

/-- `func ValidPath(path string) bool`. -/
def ValidPath : List Nat → Bool
  | [] => true
  | b :: rest =>
    if !(decide (0x20 ≤ b) && decide (b < 0x7f) && decide (b ≠ 59)) then false
    else ValidPath rest

/-! ## Vocabulary of the specification for names and paths -/

/-- The runes of a string in the order `for _, r := range s` yields them
(`skip` as in `indexFuncFrom`). -/
def runesFrom : Nat → List Nat → List Nat
  | _, [] => []
  | skip + 1, _ :: t => runesFrom skip t
  | 0, s0 :: t =>
    (DecodeRuneInString (s0 :: t)).1 :: runesFrom ((DecodeRuneInString (s0 :: t)).2 - 1) t

/-- The characters (runes) of a Go string. -/
def runes (s : List Nat) : List Nat := runesFrom 0 s

/-- The permitted token characters in the words of the specification: an
ASCII letter, an ASCII digit, or one of the fifteen symbols
`! # $ % & ' * + - . ^ _ (backquote) | ~`. -/
def isTokenChar (c : Nat) : Prop :=
  (65 ≤ c ∧ c ≤ 90) ∨ (97 ≤ c ∧ c ≤ 122) ∨ (48 ≤ c ∧ c ≤ 57) ∨
    c ∈ [33, 35, 36, 37, 38, 39, 42, 43, 45, 46, 94, 95, 96, 124, 126]

instance : DecidablePred isTokenChar := fun c => by
  unfold isTokenChar; infer_instance

/-- The characters the specification lists as excluded from names: control
characters, space, the separators `" ( ) , / : ; < = > ? @ [ \ ] { }`, DEL and
every code point from 127 on. -/
def isExcludedChar (c : Nat) : Prop :=
  c < 32 ∨ c = 32 ∨
    c ∈ [34, 40, 41, 44, 47, 58, 59, 60, 61, 62, 63, 64, 91, 92, 93, 123, 125] ∨
    127 ≤ c

/-! ## The `strings` functions used by the package -/

/-- `strings.Split(s, sep)` for a one-byte separator (the package only splits
on `"."`): the substrings between the occurrences of `sep`, one more than
there are separators. -/
def Split (s : List Nat) (sep : Nat) : List (List Nat) :=
  match s with
  | [] => [[]]
  | c :: t =>
    if c = sep then [] :: Split t sep
    else
      match Split t sep with
      | [] => [[c]]
      | p :: ps => (c :: p) :: ps

/-- `strings.Join(elems, sep)` for a one-byte separator. -/
def Join : List (List Nat) → Nat → List Nat
  | [], _ => []
  | [p], _ => p
  | p :: q :: ps, sep => p ++ sep :: Join (q :: ps) sep

/-- `strings.Count(s, substr)` for a one-byte `substr`. -/
def Count (s : List Nat) (c : Nat) : Nat := s.count c

/-- `strings.Contains(s, substr)` for a one-byte `substr`. -/
def Contains (s : List Nat) (c : Nat) : Bool := decide (c ∈ s)

/-! ## `isCookieDomainName` -/

/-- The `for i := 1; i < len(s); i++` loop of `isCookieDomainName` over the
bytes still to read, with the loop variables `last`, `ok` and `partlen`;
`none` is a `return false` from inside the loop. -/
def isCookieDomainNameLoop : List Nat → Nat → Bool → Nat → Option (Nat × Bool × Nat)
  | [], last, ok, partlen => some (last, ok, partlen)
  | c :: rest, last, ok, partlen =>
    if (97 ≤ c ∧ c ≤ 122) ∨ (65 ≤ c ∧ c ≤ 90) then
      isCookieDomainNameLoop rest c true (partlen + 1)
    else if 48 ≤ c ∧ c ≤ 57 then
      isCookieDomainNameLoop rest c ok (partlen + 1)
    else if c = 45 then
      -- Byte before dash cannot be dot.
      if last = 46 then none
      else isCookieDomainNameLoop rest c ok (partlen + 1)
    else if c = 46 then
      -- Byte before dot cannot be dot, dash.
      if last = 46 ∨ last = 45 then none
      else if partlen > 63 ∨ partlen = 0 then none
      else isCookieDomainNameLoop rest c ok 0
    else none

/-- `func isCookieDomainName(s string) bool`. -/
def isCookieDomainName (s : List Nat) : Bool :=
  match s with
  | [] => false                             -- len(s) == 0
  | s0 :: rest =>
    if (s0 :: rest).length > 255 then false
    else if s0 ≠ 46 then false              -- s[0] != '.'
    else
      match isCookieDomainNameLoop rest s0 false 0 with
      | none => false
      | some (last, ok, partlen) =>
        if last = 45 ∨ partlen > 63 then false
        else if !ok then false
        else if Count (s0 :: rest) 46 < 2 then false
        else true

/-! ## `net.ParseIP` and `ValidDomain` -/

/-- The loop of `netip.parseIPv4` (the IPv4 parser behind `net.ParseIP`) at
index `i`, reading the bytes `rest = s[i:]`, with the loop variables `val`,
`pos`, `digLen` and the octets stored so far in `fields`; `none` is an error
return. -/
def parseIPv4Loop (s : List Nat) :
    List Nat → Nat → Nat → Nat → Nat → List Nat → Option (Nat × Nat × List Nat)
  | [], _, val, pos, _, fields => some (val, pos, fields)
  | c :: rest, i, val, pos, digLen, fields =>
    if 48 ≤ c ∧ c ≤ 57 then
      if digLen = 1 ∧ val = 0 then none       -- octet with leading zero
      else if val * 10 + c - 48 > 255 then none
      else parseIPv4Loop s rest (i + 1) (val * 10 + c - 48) pos (digLen + 1) fields
    else if c = 46 then
      if i = 0 ∨ i = s.length - 1 ∨ s.getD (i - 1) 0 = 46 then none
      else if pos = 3 then none               -- address too long
      else parseIPv4Loop s rest (i + 1) 0 (pos + 1) 0 (fields ++ [val])
    else none                                 -- unexpected character

/-- `parseIPv4`: the four octets of a dotted-decimal address, or `none`. -/
def parseIPv4 (s : List Nat) : Option (List Nat) :=
  match parseIPv4Loop s s 0 0 0 0 [] with
  | none => none
  | some (val, pos, fields) =>
    if pos < 3 then none                      -- address too short
    else some (fields ++ [val])

/-- The dispatch loop of `net.ParseIP` (through `netip.ParseAddr`): the first
`'.'`, `':'` or `'%'` of `rest` decides how the whole string `s` is parsed.
The IPv6 parser is not part of the model: it is the parameter `parseIPv6`. -/
def ParseIPFrom (parseIPv6 : List Nat → Option (List Nat)) (s : List Nat) :
    List Nat → Option (List Nat)
  | [] => none
  | c :: rest =>
    if c = 46 then parseIPv4 s
    else if c = 58 then parseIPv6 s
    else if c = 37 then none
    else ParseIPFrom parseIPv6 s rest

/-- `net.ParseIP(s)`: `none` is Go's `nil`. -/
def ParseIP (parseIPv6 : List Nat → Option (List Nat)) (s : List Nat) : Option (List Nat) :=
  ParseIPFrom parseIPv6 s s

/-- `func ValidDomain(domain string) bool`. -/
def ValidDomain (parseIPv6 : List Nat → Option (List Nat)) (domain : List Nat) : Bool :=
  if isCookieDomainName domain then true
  else if (ParseIP parseIPv6 domain).isSome && !Contains domain 58 then true
  else false

/-! ## `path.Dir` and `path.Clean` -/

/-- `strings.LastIndex(s, "/")` for a one-byte needle: the index of its last
occurrence in `s`, or `-1`. -/
def LastIndexByte (s : List Nat) (c : Nat) : Int :=
  match s with
  | [] => -1
  | b :: t =>
    if LastIndexByte t c ≥ 0 then LastIndexByte t c + 1
    else if b = c then 0
    else -1

/-- The backtracking loop of `path.Clean` for a `..` element, after the first
`out.w--`: `for out.w > dotdot && out.index(out.w) != '/' { out.w-- }`.  It
maps the write index `w` to its value when the loop ends. -/
def backtrackLoop (buf : List Nat) (dotdot : Nat) : Nat → Nat
  | 0 => 0
  | w + 1 =>
    if w + 1 > dotdot ∧ buf.getD (w + 1) 0 ≠ 47 then backtrackLoop buf dotdot w
    else w + 1

/-- The main loop `for r < n { switch ... }` of `path.Clean`.  `rest` is
`path[r:]`, `out` is the content `buf[:w]` of the output buffer (so `out.w` is
`out.length`), `dotdot` is the loop variable of that name. -/
def cleanLoop (rooted : Bool) : Nat → List Nat → List Nat → Nat → Outcome (List Nat)
  | _, [], out, _ => Outcome.ok out
  | 0, _ :: _, _, _ => Outcome.outOfFuel
  | fuel + 1, c :: t, out, dotdot =>
    if c = 47 then
      -- empty path element
      cleanLoop rooted fuel t out dotdot
    else if c = 46 ∧ (t = [] ∨ t.head? = some 47) then
      -- . element
      cleanLoop rooted fuel t out dotdot
    else if c = 46 ∧ t.head? = some 46 ∧ (t.tail = [] ∨ t.tail.head? = some 47) then
      -- .. element: remove to last /
      if out.length > dotdot then
        -- can backtrack
        cleanLoop rooted fuel t.tail
          (out.take (backtrackLoop out dotdot (out.length - 1))) dotdot
      else if !rooted then
        -- cannot backtrack, but not rooted, so append .. element.
        cleanLoop rooted fuel t.tail
          ((if out.length > 0 then out ++ [47] else out) ++ [46, 46])
          ((if out.length > 0 then out ++ [47] else out) ++ [46, 46]).length
      else cleanLoop rooted fuel t.tail out dotdot
    else
      -- real path element: add slash if needed, then copy the element
      cleanLoop rooted fuel ((c :: t).dropWhile (fun b => decide (b ≠ 47)))
        ((if (rooted && decide (out.length ≠ 1)) || (!rooted && decide (out.length ≠ 0))
            then out ++ [47] else out)
          ++ (c :: t).takeWhile (fun b => decide (b ≠ 47)))
        dotdot

/-- `path.Clean(path)`. -/
def Clean (fuel : Nat) (path : List Nat) : Outcome (List Nat) :=
  if path = [] then Outcome.ok [46]
  else
    match (if path.head? = some 47
            then cleanLoop true fuel (path.drop 1) [47] 1
            else cleanLoop false fuel path [] 0) with
    | Outcome.ok out => if out.length = 0 then Outcome.ok [46] else Outcome.ok out
    | Outcome.panicked => Outcome.panicked
    | Outcome.outOfFuel => Outcome.outOfFuel

/-- `path.Dir(path)`: `Clean` of everything up to and including the last
slash (the `dir` part of `path.Split`). -/
def Dir (fuel : Nat) (path : List Nat) : Outcome (List Nat) :=
  Clean fuel (path.take (LastIndexByte path 47 + 1).toNat)

/-! ## `DeepDelete` -/

/-- The fields of `http.Cookie` that `DeepDelete` sets, and `Value`; the
fields it leaves out of the literal keep their zero values. -/
structure Cookie where
  Name : List Nat
  Value : List Nat
  Path : List Nat
  Domain : List Nat
  MaxAge : Int
  Secure : Bool
  HttpOnly : Bool
  deriving DecidableEq, Repr

/-- The first loop of `DeepDelete` (lines 134 to 141), entered with the
current `domains` and `tempDomain`; it yields the final `domains`.  The slice
expression `[2:]` panics when `strings.Split` gave fewer than two elements. -/
def domainLoop : Nat → List (List Nat) → List Nat → Outcome (List (List Nat))
  | 0, _, _ => Outcome.outOfFuel
  | fuel + 1, domains, tempDomain =>
    if (Split tempDomain 46).length < 2 then Outcome.panicked
    else if ((Split tempDomain 46).drop 2).length < 2 then
      Outcome.ok (domains ++ [tempDomain])
    else
      domainLoop fuel (domains ++ [tempDomain])
        (46 :: Join ((Split tempDomain 46).drop 2) 46)

/-- The second loop of `DeepDelete` (lines 146 to 152), entered with the
current `paths` and `tempPath`; it yields the final `paths`.  `fuel` bounds
the loop of each `path.Dir` call, `n` the iterations of this loop. -/
def pathLoop (fuel : Nat) : Nat → List (List Nat) → List Nat → Outcome (List (List Nat))
  | 0, _, _ => Outcome.outOfFuel
  | n + 1, paths, tempPath =>
    if tempPath = [] ∨ tempPath = [46] ∨ tempPath = [47] then Outcome.ok paths
    else
      match Dir fuel tempPath with
      | Outcome.ok d => pathLoop fuel n (paths ++ [tempPath]) d
      | Outcome.panicked => Outcome.panicked
      | Outcome.outOfFuel => Outcome.outOfFuel

/-- The domain variants of a request host: `domains` after the first loop. -/
def domainVariants (fuel : Nat) (host : List Nat) : Outcome (List (List Nat)) :=
  domainLoop fuel [[]] (46 :: host)

/-- The path variants of a request path: `paths` after the second loop. -/
def pathVariants (fuel : Nat) (urlPath : List Nat) : Outcome (List (List Nat)) :=
  pathLoop fuel fuel [[], [47]] urlPath

/-- The cookie literal of lines 159 to 166. -/
def deleteCookie (cookieName domain path : List Nat) : Cookie :=
  { Name := cookieName, Value := [], MaxAge := -1, Secure := true, HttpOnly := true,
    Domain := domain, Path := path }

/-- The third loop nest of `DeepDelete` (lines 156 to 171): the cookies handed
to `http.SetCookie`, in the order of the calls. -/
def emitCookies (cookieName : List Nat) (domains paths : List (List Nat)) : List Cookie :=
  domains.flatMap (fun domain => paths.map (fun path => deleteCookie cookieName domain path))

/-- `func DeepDelete(cookieName string, w http.ResponseWriter, r *http.Request)`
as a function of `cookieName`, `r.Host` and `r.URL.Path`: the directives it
hands to `http.SetCookie(w, ...)`, in order. -/
def DeepDelete (fuel : Nat) (cookieName host urlPath : List Nat) : Outcome (List Cookie) :=
  match domainVariants fuel host with
  | Outcome.ok domains =>
    match pathVariants fuel urlPath with
    | Outcome.ok paths => Outcome.ok (emitCookies cookieName domains paths)
    | Outcome.panicked => Outcome.panicked
    | Outcome.outOfFuel => Outcome.outOfFuel
  | Outcome.panicked => Outcome.panicked
  | Outcome.outOfFuel => Outcome.outOfFuel

/-! ## Vocabulary of the specification for domains -/

/-- An ASCII letter. -/
def isLetter (c : Nat) : Prop := (97 ≤ c ∧ c ≤ 122) ∨ (65 ≤ c ∧ c ≤ 90)

instance : DecidablePred isLetter := fun c => by
  unfold isLetter; infer_instance

/-- A character of the class `[A-Za-z0-9-]`. -/
def isLabelChar (c : Nat) : Prop := isLetter c ∨ (48 ≤ c ∧ c ≤ 57) ∨ c = 45

instance : DecidablePred isLabelChar := fun c => by
  unfold isLabelChar; infer_instance

/-- A label of the Domain-Name Grammar: 1 to 63 characters drawn from
`[A-Za-z0-9-]`, neither starting nor ending with `'-'`. -/
def isLabel (l : List Nat) : Prop :=
  1 ≤ l.length ∧ l.length ≤ 63 ∧ (∀ c ∈ l, isLabelChar c) ∧
    l.head? ≠ some 45 ∧ l.getLast? ≠ some 45

/-- The Domain-Name Grammar in the words of the specification: `s` starts with
`'.'`, `len(s) ≤ 255`, the text after the leading dot splits on `'.'` into at
least two labels, every one of them is a label (`isLabel`), and `s` contains
at least one letter. -/
def DomainNameGrammar (s : List Nat) : Prop :=
  s.head? = some 46 ∧ s.length ≤ 255 ∧ 2 ≤ (Split s.tail 46).length ∧
    (∀ l ∈ Split s.tail 46, isLabel l) ∧ ∃ c ∈ s, isLetter c

/-- The string `s` without its last byte when that byte is `'.'`. -/
def dropTrailingDot (s : List Nat) : List Nat :=
  if s.getLast? = some 46 then s.dropLast else s

/-- The Domain-Name Grammar with one optional trailing dot: as
`DomainNameGrammar`, but the labels are those of the text after the leading
dot once one trailing dot, if there is one, is removed. -/
def DomainNameGrammarTrailingDot (s : List Nat) : Prop :=
  s.head? = some 46 ∧ s.length ≤ 255 ∧ 2 ≤ (Split (dropTrailingDot s.tail) 46).length ∧
    (∀ l ∈ Split (dropTrailingDot s.tail) 46, isLabel l) ∧ ∃ c ∈ s, isLetter c

/-- A single label between a leading and a trailing dot: `"." + L + "."` where
`L` holds no dot. -/
def isSingleLabelWithTrailingDot (s : List Nat) : Prop :=
  s.head? = some 46 ∧ s.tail.getLast? = some 46 ∧ 46 ∉ s.tail.dropLast

instance : DecidablePred isLabel := fun l => by
  unfold isLabel; infer_instance

instance : DecidablePred DomainNameGrammar := fun s => by
  unfold DomainNameGrammar; infer_instance

instance : DecidablePred DomainNameGrammarTrailingDot := fun s => by
  unfold DomainNameGrammarTrailingDot; infer_instance

instance : DecidablePred isSingleLabelWithTrailingDot := fun s => by
  unfold isSingleLabelWithTrailingDot; infer_instance

/-! ## Vocabulary of the specification for paths -/

/-- The slash-separated segments of a path: the non-empty strings between its
slashes. -/
def segments (p : List Nat) : List (List Nat) :=
  (Split p 47).filter (fun s => decide (s ≠ []))

/-- A segment of a clean path: non-empty, without `'/'`, and neither `"."` nor
`".."`. -/
def isCleanSegment (s : List Nat) : Prop :=
  s ≠ [] ∧ 47 ∉ s ∧ s ≠ [46] ∧ s ≠ [46, 46]

instance : DecidablePred isCleanSegment := fun s => by
  unfold isCleanSegment; infer_instance

/-! ## Vocabulary of the specification for IP address literals -/

/-- The number a string of decimal digits denotes. -/
def decimalValue (f : List Nat) : Nat :=
  f.foldl (fun v c => v * 10 + (c - 48)) 0

/-- A field of a dotted-decimal IPv4 address: a non-empty string of decimal
digits without a leading zero (the field `"0"` apart) whose value is at most
255.  This is the strict textual form, the one `net.ParseIP` reads since it
rejects octets with leading zeros. -/
def isDecimalOctet (f : List Nat) : Prop :=
  f ≠ [] ∧ (∀ c ∈ f, 48 ≤ c ∧ c ≤ 57) ∧ (1 < f.length → f.head? ≠ some 48) ∧
    decimalValue f ≤ 255

instance : DecidablePred isDecimalOctet := fun f => by
  unfold isDecimalOctet; infer_instance

/-- A dotted-decimal IPv4 address literal: four decimal octets separated by
dots. -/
def isDottedDecimalIPv4 (s : List Nat) : Prop :=
  (Split s 46).length = 4 ∧ ∀ f ∈ Split s 46, isDecimalOctet f

instance : DecidablePred isDottedDecimalIPv4 := fun s => by
  unfold isDottedDecimalIPv4; infer_instance

/-! # Theorems -/

/-! ## `ValidName` -/

theorem isNotToken_of_ge {r : Nat} (h : 127 ≤ r) : isNotToken r = true := by
  have hlen : isTokenTable.length = 127 := rfl
  simp [isNotToken, hlen, h]

set_option maxRecDepth 8000 in
theorem isNotToken_eq_false_iff (r : Nat) : isNotToken r = false ↔ isTokenChar r := by
  by_cases h : r < 127
  · have key : ∀ n, n < 127 → (isNotToken n = false ↔ isTokenChar n) := by decide
    exact key r h
  · have h1 : 127 ≤ r := Nat.le_of_not_lt h
    rw [isNotToken_of_ge h1]
    constructor
    · intro hc; cases hc
    · intro hc
      unfold isTokenChar at hc
      simp only [List.mem_cons, List.mem_singleton, List.not_mem_nil, or_false] at hc
      omega

theorem DecodeRuneInString_ascii {s0 : Nat} (t : List Nat) (h : s0 < 128) :
    DecodeRuneInString (s0 :: t) = (s0, 1) := by
  simp [DecodeRuneInString, h]

theorem DecodeRuneInString_high {s0 : Nat} (t : List Nat) (h : 128 ≤ s0) :
    128 ≤ (DecodeRuneInString (s0 :: t)).1 := by
  unfold DecodeRuneInString
  simp only [List.getD_cons_zero, RuneError]
  generalize (s0 :: t).getD 1 0 = s1
  generalize (s0 :: t).getD 2 0 = s2
  generalize (s0 :: t).getD 3 0 = s3
  generalize (s0 :: t).length = n
  have h0 : ¬ s0 < 128 := by omega
  simp only [h0, if_false]
  by_cases hn : n < 1
  · simp only [hn, if_true]; omega
  by_cases hi : s0 < 194 ∨ 244 < s0
  · simp only [hn, hi, if_true, if_false]; omega
  simp only [hn, hi, if_false]
  by_cases hA : s0 < 224
  · have e1 : ¬ s0 = 224 := by omega
    have e2 : ¬ s0 = 240 := by omega
    have e3 : ¬ s0 = 237 := by omega
    have e4 : ¬ s0 = 244 := by omega
    simp only [hA, e1, e2, e3, e4, if_true, if_false, le_refl]
    split_ifs <;> omega
  by_cases hB : s0 < 240
  · have e2 : ¬ s0 = 240 := by omega
    have e4 : ¬ s0 = 244 := by omega
    have e5 : ¬ (3 ≤ 2) := by omega
    simp only [hA, hB, e2, e4, e5, if_true, if_false, le_refl]
    split_ifs <;> omega
  · have e1 : ¬ s0 = 224 := by omega
    have e3 : ¬ s0 = 237 := by omega
    have e5 : ¬ (4 ≤ 2) := by omega
    have e6 : ¬ (4 ≤ 3) := by omega
    simp only [hA, hB, e1, e3, e5, e6, if_false]
    split_ifs <;> omega

theorem indexFuncFrom_neg_iff (f : Nat → Bool) (s : List Nat) :
    ∀ (i skip : Nat), indexFuncFrom f i skip s < 0 ↔ ∀ r ∈ runesFrom skip s, f r = false := by
  induction s with
  | nil => intro i skip; simp [indexFuncFrom, runesFrom]
  | cons s0 t ih =>
    intro i skip
    cases skip with
    | succ k => simp only [indexFuncFrom, runesFrom]; exact ih (i + 1) k
    | zero =>
      simp only [indexFuncFrom, runesFrom, List.mem_cons, forall_eq_or_imp]
      by_cases hf : f (DecodeRuneInString (s0 :: t)).1 = true
      · simp only [hf, if_true]
        constructor
        · intro h; omega
        · intro h; simp at h
      · have hf' : f (DecodeRuneInString (s0 :: t)).1 = false := by simpa using hf
        simp only [hf', Bool.false_eq_true, if_false, true_and]
        exact ih _ _

theorem runesFrom_all_token_iff (s : List Nat) :
    (∀ r ∈ runesFrom 0 s, isNotToken r = false) ↔ ∀ b ∈ s, isNotToken b = false := by
  induction s with
  | nil => simp [runesFrom]
  | cons s0 t ih =>
    simp only [runesFrom, List.mem_cons, forall_eq_or_imp]
    by_cases h : s0 < 128
    · rw [DecodeRuneInString_ascii t h]
      simp only [Nat.sub_self]
      rw [ih]
    · have h1 : 128 ≤ s0 := Nat.le_of_not_lt h
      have h2 := DecodeRuneInString_high t h1
      have h3 : isNotToken (DecodeRuneInString (s0 :: t)).1 = true :=
        isNotToken_of_ge (by omega)
      have h4 : isNotToken s0 = true := isNotToken_of_ge (by omega)
      simp [h3, h4]

theorem ValidName_eq_true_iff (s : List Nat) :
    ValidName s = true ↔ s ≠ [] ∧ ∀ r ∈ runes s, isNotToken r = false := by
  unfold ValidName IndexFunc runes
  by_cases h : s = []
  · simp [h]
  · simp only [h, if_false, decide_eq_true_eq, ne_eq, not_false_eq_true, true_and]
    exact indexFuncFrom_neg_iff isNotToken s 0 0

theorem not_isTokenChar_of_isExcludedChar {c : Nat} (h : isExcludedChar c) :
    ¬ isTokenChar c := by
  unfold isExcludedChar at h
  unfold isTokenChar
  simp only [List.mem_cons, List.mem_singleton, List.not_mem_nil, or_false] at h ⊢
  omega

/-- C2. `ValidName(s)` is true if and only if `s` is non-empty and every
character of `s` is an ASCII letter, an ASCII digit or one of the fifteen
symbols (`isTokenChar`); this holds for the characters read as runes and for
the bytes of `s` alike.  In particular a name holding a control character, a
space, a separator, DEL or any code point from 127 on (`isExcludedChar`), as a
rune or as a byte, is invalid. -/
theorem ValidName_iff_token_chars (s : List Nat) :
    (ValidName s = true ↔ s ≠ [] ∧ ∀ c ∈ runes s, isTokenChar c) ∧
    (ValidName s = true ↔ s ≠ [] ∧ ∀ b ∈ s, isTokenChar b) ∧
    (∀ c ∈ runes s, isExcludedChar c → ValidName s = false) ∧
    (∀ b ∈ s, isExcludedChar b → ValidName s = false) := by
  have hr : ValidName s = true ↔ s ≠ [] ∧ ∀ c ∈ runes s, isTokenChar c := by
    rw [ValidName_eq_true_iff]
    simp only [isNotToken_eq_false_iff]
  have hb : ValidName s = true ↔ s ≠ [] ∧ ∀ b ∈ s, isTokenChar b := by
    rw [ValidName_eq_true_iff, runes, runesFrom_all_token_iff]
    simp only [isNotToken_eq_false_iff]
  refine ⟨hr, hb, ?_, ?_⟩
  · intro c hc hex
    cases hv : ValidName s with
    | false => rfl
    | true => exact absurd ((hr.mp hv).2 c hc) (not_isTokenChar_of_isExcludedChar hex)
  · intro b hb' hex
    cases hv : ValidName s with
    | false => rfl
    | true => exact absurd ((hb.mp hv).2 b hb') (not_isTokenChar_of_isExcludedChar hex)

/-! ## `ValidPath` -/

/-- C3. `ValidPath(p)` is true if and only if every byte `b` of `p` satisfies
`0x20 ≤ b ≤ 0x7E` and `b ≠ ';'`; in particular `ValidPath("")` is true, and a
control byte, a byte from `0x7F` on, or a semicolon makes it false. -/
theorem ValidPath_iff_printable (p : List Nat) :
    (ValidPath p = true ↔ ∀ b ∈ p, 0x20 ≤ b ∧ b ≤ 0x7E ∧ b ≠ 59) ∧
    ValidPath [] = true ∧
    (∀ b ∈ p, (b < 0x20 ∨ 0x7F ≤ b ∨ b = 59) → ValidPath p = false) := by
  have main : ∀ q : List Nat,
      ValidPath q = true ↔ ∀ b ∈ q, 0x20 ≤ b ∧ b ≤ 0x7E ∧ b ≠ 59 := by
    intro q
    induction q with
    | nil => simp [ValidPath]
    | cons b rest ih =>
      simp only [ValidPath, List.mem_cons, forall_eq_or_imp]
      by_cases hb : 0x20 ≤ b ∧ b ≤ 0x7E ∧ b ≠ 59
      · have h1 : (!(decide (0x20 ≤ b) && decide (b < 0x7f) && decide (b ≠ 59))) = false := by
          have : b < 0x7f := by omega
          simp [hb.1, this, hb.2.2]
        rw [h1]
        simp only [Bool.false_eq_true, if_false]
        rw [ih]
        exact ⟨fun h => ⟨hb, h⟩, fun h => h.2⟩
      · have h1 : (!(decide (0x20 ≤ b) && decide (b < 0x7f) && decide (b ≠ 59))) = true := by
          simp only [Bool.not_eq_true', Bool.and_eq_false_imp, Bool.and_eq_true,
            decide_eq_true_eq, decide_eq_false_iff_not]
          intro h; intro h2; apply hb; omega
        rw [h1]
        simp only [if_true, Bool.false_eq_true, false_iff]
        intro h; exact hb h.1
  refine ⟨main p, rfl, ?_⟩
  intro b hb hbad
  cases hv : ValidPath p with
  | false => rfl
  | true =>
    have := (main p).mp hv b hb
    omega

/-! ## `strings.Split` and `strings.Join` -/

theorem Split_ne_nil (s : List Nat) (sep : Nat) : Split s sep ≠ [] := by
  induction s with
  | nil => simp [Split]
  | cons c t ih =>
    unfold Split
    split_ifs
    · simp
    · split <;> simp

theorem Split_exists_cons (s : List Nat) (sep : Nat) : ∃ p ps, Split s sep = p :: ps := by
  cases hs : Split s sep with
  | nil => exact absurd hs (Split_ne_nil s sep)
  | cons p ps => exact ⟨p, ps, rfl⟩

theorem Split_cons_sep (t : List Nat) (sep : Nat) : Split (sep :: t) sep = [] :: Split t sep := by
  simp [Split]

theorem Split_cons_ne {c sep : Nat} {t p : List Nat} {ps : List (List Nat)} (h : c ≠ sep)
    (hs : Split t sep = p :: ps) : Split (c :: t) sep = (c :: p) :: ps := by
  rw [Split]
  simp only [h, if_false, hs]

theorem Split_append_sep (p t : List Nat) (sep : Nat) (h : sep ∉ p) :
    Split (p ++ sep :: t) sep = p :: Split t sep := by
  induction p with
  | nil => simp [Split]
  | cons c p ih =>
    have hc : c ≠ sep := fun e => h (by simp [e])
    have hp : sep ∉ p := fun e => h (by simp [e])
    rw [List.cons_append, Split_cons_ne hc (ih hp)]

theorem Split_of_not_mem (p : List Nat) (sep : Nat) (h : sep ∉ p) : Split p sep = [p] := by
  induction p with
  | nil => simp [Split]
  | cons c p ih =>
    have hc : c ≠ sep := fun e => h (by simp [e])
    have hp : sep ∉ p := fun e => h (by simp [e])
    rw [Split_cons_ne hc (ih hp)]

theorem Split_length (s : List Nat) (sep : Nat) : (Split s sep).length = Count s sep + 1 := by
  induction s with
  | nil => simp [Split, Count]
  | cons c t ih =>
    unfold Count at ih ⊢
    by_cases hc : c = sep
    · subst hc
      rw [Split_cons_sep]
      simp [ih]
    · obtain ⟨p, ps, hs⟩ := Split_exists_cons t sep
      rw [Split_cons_ne hc hs]
      rw [hs] at ih
      rw [List.count_cons_of_ne (Ne.symm hc), ← ih]
      simp

theorem not_mem_of_mem_Split (s : List Nat) (sep : Nat) :
    ∀ p ∈ Split s sep, sep ∉ p := by
  induction s with
  | nil => simp [Split]
  | cons c t ih =>
    by_cases hc : c = sep
    · subst hc
      rw [Split_cons_sep]
      intro p hp
      rcases List.mem_cons.mp hp with rfl | hp
      · simp
      · exact ih p hp
    · obtain ⟨q, qs, hs⟩ := Split_exists_cons t sep
      rw [Split_cons_ne hc hs]
      rw [hs] at ih
      intro p hp
      rcases List.mem_cons.mp hp with rfl | hp
      · intro hmem
        rcases List.mem_cons.mp hmem with e | hmem
        · exact hc e.symm
        · exact ih q (by simp) hmem
      · exact ih p (List.mem_cons_of_mem _ hp)

theorem Join_cons_cons (p q : List Nat) (ps : List (List Nat)) (sep : Nat) :
    Join (p :: q :: ps) sep = p ++ sep :: Join (q :: ps) sep := rfl

theorem Join_cons_of_ne_nil (p : List Nat) {ps : List (List Nat)} (sep : Nat) (h : ps ≠ []) :
    Join (p :: ps) sep = p ++ sep :: Join ps sep := by
  cases ps with
  | nil => exact absurd rfl h
  | cons q qs => rfl

theorem Split_Join (parts : List (List Nat)) (sep : Nat) (hne : parts ≠ [])
    (h : ∀ p ∈ parts, sep ∉ p) : Split (Join parts sep) sep = parts := by
  induction parts with
  | nil => exact absurd rfl hne
  | cons p ps ih =>
    cases ps with
    | nil => simpa [Join] using Split_of_not_mem p sep (h p (by simp))
    | cons q qs =>
      rw [Join_cons_cons, Split_append_sep _ _ _ (h p (by simp)),
        ih (by simp) (fun x hx => h x (List.mem_cons_of_mem _ hx))]

theorem Join_Split (s : List Nat) (sep : Nat) : Join (Split s sep) sep = s := by
  induction s with
  | nil => simp [Split, Join]
  | cons c t ih =>
    by_cases hc : c = sep
    · subst hc
      rw [Split_cons_sep, Join_cons_of_ne_nil _ _ (Split_ne_nil t c), ih]
      rfl
    · obtain ⟨p, ps, hs⟩ := Split_exists_cons t sep
      rw [Split_cons_ne hc hs]
      rw [hs] at ih
      cases ps with
      | nil => simpa [Join] using ih
      | cons q qs =>
        rw [Join_cons_cons] at ih ⊢
        rw [List.cons_append, ih]

/-! ## The domain loop of `DeepDelete` -/

theorem Split_dot_Join (ls : List (List Nat)) (hne : ls ≠ []) (h : ∀ p ∈ ls, 46 ∉ p) :
    Split (46 :: Join ls 46) 46 = [] :: ls := by
  rw [Split_cons_sep, Split_Join ls 46 hne h]

theorem domainLoop_Join (fuel : Nat) :
    ∀ (ls : List (List Nat)) (acc : List (List Nat)), ls ≠ [] → (∀ p ∈ ls, 46 ∉ p) →
      max (ls.length - 1) 1 ≤ fuel →
      domainLoop fuel acc (46 :: Join ls 46) =
        Outcome.ok (acc ++ (List.range (max (ls.length - 1) 1)).map
          (fun i => 46 :: Join (ls.drop i) 46)) := by
  induction fuel with
  | zero => intro ls acc _ _ hf; omega
  | succ fuel ih =>
    intro ls acc hne hdot hf
    rw [domainLoop, Split_dot_Join ls hne hdot]
    have h1 : ¬ ([] :: ls).length < 2 := by
      have : 0 < ls.length := List.length_pos.mpr hne
      simp only [List.length_cons]; omega
    simp only [h1, if_false]
    have hdrop : ([] :: ls).drop 2 = ls.tail := by
      cases ls with
      | nil => exact absurd rfl hne
      | cons a t => rfl
    rw [hdrop]
    by_cases h2 : ls.tail.length < 2
    · simp only [h2, if_true]
      have : max (ls.length - 1) 1 = 1 := by
        rw [List.length_tail] at h2; omega
      rw [this]
      rfl
    · simp only [h2, if_false]
      have hlt : ls.tail.length = ls.length - 1 := List.length_tail ls
      have htne : ls.tail ≠ [] := by
        intro e; rw [e] at h2; simp at h2
      have htdot : ∀ p ∈ ls.tail, 46 ∉ p := fun p hp => hdot p (List.mem_of_mem_tail hp)
      rw [ih ls.tail (acc ++ [46 :: Join ls 46]) htne htdot (by omega)]
      have e1 : max (ls.length - 1) 1 = max (ls.tail.length - 1) 1 + 1 := by omega
      rw [e1, List.range_succ_eq_map, List.map_cons, List.map_map]
      simp only [List.drop_zero, List.append_assoc, List.singleton_append]
      congr 3
      apply List.map_congr_left
      intro i _
      simp only [Function.comp_apply, Nat.succ_eq_add_one]
      rw [← List.drop_one, List.drop_drop]
      congr 3
      omega

theorem domainVariants_ok (fuel : Nat) (host : List Nat) (hf : host.length + 1 ≤ fuel) :
    domainVariants fuel host =
      Outcome.ok ([] :: (List.range (max ((Split host 46).length - 1) 1)).map
        (fun i => 46 :: Join ((Split host 46).drop i) 46)) := by
  have hlen : (Split host 46).length ≤ host.length + 1 := by
    rw [Split_length]
    have : Count host 46 ≤ host.length := List.count_le_length _ _
    omega
  have := domainLoop_Join fuel (Split host 46) [[]] (Split_ne_nil host 46)
    (not_mem_of_mem_Split host 46) (by omega)
  rw [Join_Split] at this
  simpa [domainVariants] using this

/-- C5. For a request host whose split on `'.'` gives the labels
`l_0 .. l_(n-1)`, the domain-variant list built by `DeepDelete` is `""` followed
by the dotted suffixes `"." + join(l_i ..)` for `i` from `0` up to
`max(n-2, 0)`, in that order; it has exactly `max(n-1, 1) + 1` entries. -/
theorem domainVariants_suffixes (fuel : Nat) (host : List Nat)
    (hf : host.length + 1 ≤ fuel) :
    1 ≤ (Split host 46).length ∧
    domainVariants fuel host =
      Outcome.ok ([] :: (List.range (max ((Split host 46).length - 2) 0 + 1)).map
        (fun i => 46 :: Join ((Split host 46).drop i) 46)) ∧
    ([] :: (List.range (max ((Split host 46).length - 2) 0 + 1)).map
        (fun i => 46 :: Join ((Split host 46).drop i) 46)).length
      = max ((Split host 46).length - 1) 1 + 1 := by
  have hpos : 1 ≤ (Split host 46).length := List.length_pos.mpr (Split_ne_nil host 46)
  have e : max ((Split host 46).length - 2) 0 + 1 = max ((Split host 46).length - 1) 1 := by
    omega
  refine ⟨hpos, ?_, ?_⟩
  · rw [e]; exact domainVariants_ok fuel host hf
  · rw [e]; simp

theorem domainVariants_suffixes_witness :
    1 ≤ (Split (bytes "www.example.com") 46).length ∧
    domainVariants 16 (bytes "www.example.com") =
      Outcome.ok ([] :: (List.range (max ((Split (bytes "www.example.com") 46).length - 2) 0 + 1)).map
        (fun i => 46 :: Join ((Split (bytes "www.example.com") 46).drop i) 46)) ∧
    ([] :: (List.range (max ((Split (bytes "www.example.com") 46).length - 2) 0 + 1)).map
        (fun i => 46 :: Join ((Split (bytes "www.example.com") 46).drop i) 46)).length
      = max ((Split (bytes "www.example.com") 46).length - 1) 1 + 1 :=
  domainVariants_suffixes 16 (bytes "www.example.com") (by decide)

theorem Count_dot_Join (ls : List (List Nat)) (hne : ls ≠ []) (h : ∀ p ∈ ls, 46 ∉ p) :
    Count (46 :: Join ls 46) 46 = ls.length := by
  have h1 := Split_length (46 :: Join ls 46) 46
  rw [Split_dot_Join ls hne h] at h1
  simp only [List.length_cons] at h1
  omega

/-- C7 fails as stated: for the single-label host `localhost` the domain
variants are `""` and `".localhost"`, and `".localhost"` holds one dot only. -/
theorem domainVariants_two_dots_counterexample :
    ¬ (∀ (fuel : Nat) (host : List Nat) (D : List (List Nat)),
        domainVariants fuel host = Outcome.ok D →
        ∀ e ∈ D, e ≠ [] → 2 ≤ Count e 46) := by
  intro h
  have h1 : domainVariants 10 (bytes "localhost") =
      Outcome.ok [[], bytes ".localhost"] := by decide
  have h2 := h 10 (bytes "localhost") _ h1 (bytes ".localhost") (by decide) (by decide)
  revert h2
  decide

/-- C7, amended. For every request host that contains a `'.'`, every non-empty
entry of the domain-variant list of `DeepDelete` contains at least two `'.'`
characters: the leading dot and one that separates two labels. -/
theorem domainVariants_two_dots (fuel : Nat) (host : List Nat)
    (hf : host.length + 1 ≤ fuel) (hdot : 46 ∈ host) :
    ∃ D, domainVariants fuel host = Outcome.ok D ∧
      ∀ e ∈ D, e ≠ [] → 2 ≤ Count e 46 := by
  refine ⟨_, domainVariants_ok fuel host hf, ?_⟩
  have hn : 2 ≤ (Split host 46).length := by
    rw [Split_length]
    have : 0 < Count host 46 := List.count_pos_iff.mpr hdot
    omega
  intro e he hne
  rcases List.mem_cons.mp he with rfl | he
  · exact absurd rfl hne
  · obtain ⟨i, hi, rfl⟩ := List.mem_map.mp he
    have hi' : i < max ((Split host 46).length - 1) 1 := List.mem_range.mp hi
    have hlen : ((Split host 46).drop i).length = (Split host 46).length - i :=
      List.length_drop i _
    have hne' : (Split host 46).drop i ≠ [] := by
      intro e0
      rw [e0] at hlen
      simp only [List.length_nil] at hlen
      omega
    rw [Count_dot_Join _ hne'
      (fun p hp => not_mem_of_mem_Split host 46 p (List.mem_of_mem_drop hp))]
    omega

theorem domainVariants_two_dots_witness :
    ∃ D, domainVariants 16 (bytes "www.example.com") = Outcome.ok D ∧
      ∀ e ∈ D, e ≠ [] → 2 ≤ Count e 46 :=
  domainVariants_two_dots 16 (bytes "www.example.com") (by decide) (by decide)

/-! ## `isCookieDomainName` -/

theorem getLast?_cons_getD (c last : Nat) (l : List Nat) :
    (c :: l).getLast?.getD last = l.getLast?.getD c := by
  cases l with
  | nil => rfl
  | cons d l =>
    rw [List.getLast?_cons_cons]
    cases h : (d :: l).getLast? with
    | none => simp at h
    | some x => rfl

theorem isCookieDomainNameLoop_label (rest : List Nat) :
    ∀ (l : List Nat) (last : Nat) (ok : Bool) (partlen : Nat),
      (∀ c ∈ l, isLabelChar c) → (last = 46 → l.head? ≠ some 45) →
      isCookieDomainNameLoop (l ++ rest) last ok partlen =
        isCookieDomainNameLoop rest (l.getLast?.getD last)
          (ok || l.any (fun c => decide (isLetter c))) (partlen + l.length) := by
  intro l
  induction l with
  | nil => intro last ok partlen _ _; simp
  | cons c l ih =>
    intro last ok partlen hc hhead
    have hc0 : isLabelChar c := hc c (by simp)
    have hl : ∀ x ∈ l, isLabelChar x := fun x hx => hc x (List.mem_cons_of_mem _ hx)
    have hne46 : c ≠ 46 := by
      unfold isLabelChar isLetter at hc0; omega
    have hlast := getLast?_cons_getD c last l
    rw [hlast, List.cons_append, isCookieDomainNameLoop]
    by_cases h1 : (97 ≤ c ∧ c ≤ 122) ∨ (65 ≤ c ∧ c ≤ 90)
    · have hL : isLetter c := h1
      simp only [h1, if_true]
      rw [ih c true (partlen + 1) hl (fun e => absurd e hne46)]
      simp only [List.any_cons, hL, decide_True, Bool.true_or, Bool.or_true, List.length_cons]
      congr 1; omega
    · have hL : ¬ isLetter c := h1
      simp only [h1, if_false]
      by_cases h2 : 48 ≤ c ∧ c ≤ 57
      · simp only [h2, and_self, if_true]
        rw [ih c ok (partlen + 1) hl (fun e => absurd e hne46)]
        simp only [List.any_cons, hL, decide_False, Bool.false_or, List.length_cons]
        congr 1; omega
      · have h3 : c = 45 := by
          unfold isLabelChar at hc0
          rcases hc0 with h | h | h
          · exact absurd h hL
          · exact absurd h h2
          · exact h
        have h4 : ¬ last = 46 := by
          intro e
          exact hhead e (by simp [h3])
        simp only [h2, if_false, h3, h4]
        simp only [show ¬ (48 ≤ 45 ∧ 45 ≤ 57) by omega, if_false, if_true]
        rw [ih 45 ok (partlen + 1) hl (fun e => by omega)]
        have : ¬ isLetter 45 := by unfold isLetter; omega
        simp only [List.any_cons, this, decide_False, Bool.false_or, List.length_cons]
        congr 1; omega

theorem isCookieDomainNameLoop_label_of_some (rest : List Nat) :
    ∀ (l : List Nat) (last : Nat) (ok : Bool) (partlen : Nat) (st : Nat × Bool × Nat),
      46 ∉ l → isCookieDomainNameLoop (l ++ rest) last ok partlen = some st →
      (∀ c ∈ l, isLabelChar c) ∧ (last = 46 → l.head? ≠ some 45) := by
  intro l
  induction l with
  | nil => intro last ok partlen st _ _; simp
  | cons c l ih =>
    intro last ok partlen st hdot hsome
    have hc46 : c ≠ 46 := fun e => hdot (by simp [e])
    have hl46 : 46 ∉ l := fun e => hdot (List.mem_cons_of_mem _ e)
    rw [List.cons_append, isCookieDomainNameLoop] at hsome
    by_cases h1 : (97 ≤ c ∧ c ≤ 122) ∨ (65 ≤ c ∧ c ≤ 90)
    · simp only [h1, if_true] at hsome
      have := ih c true (partlen + 1) st hl46 hsome
      refine ⟨?_, ?_⟩
      · intro x hx
        rcases List.mem_cons.mp hx with rfl | hx
        · exact Or.inl h1
        · exact this.1 x hx
      · intro _
        simp only [List.head?_cons, ne_eq, Option.some.injEq]
        omega
    · simp only [h1, if_false] at hsome
      by_cases h2 : 48 ≤ c ∧ c ≤ 57
      · simp only [h2, and_self, if_true] at hsome
        have := ih c ok (partlen + 1) st hl46 hsome
        refine ⟨?_, ?_⟩
        · intro x hx
          rcases List.mem_cons.mp hx with rfl | hx
          · exact Or.inr (Or.inl h2)
          · exact this.1 x hx
        · intro _
          simp only [List.head?_cons, ne_eq, Option.some.injEq]
          omega
      · simp only [h2, if_false] at hsome
        by_cases h3 : c = 45
        · simp only [h3, if_true] at hsome
          by_cases h4 : last = 46
          · simp [h4] at hsome
          · simp only [h4, if_false] at hsome
            have := ih 45 ok (partlen + 1) st hl46 hsome
            refine ⟨?_, fun e => absurd e h4⟩
            intro x hx
            rcases List.mem_cons.mp hx with rfl | hx
            · exact Or.inr (Or.inr h3)
            · exact this.1 x hx
        · simp [h3, hc46] at hsome

theorem isCookieDomainNameLoop_dot (rest : List Nat) (last : Nat) (ok : Bool) (partlen : Nat) :
    isCookieDomainNameLoop (46 :: rest) last ok partlen =
      if last = 46 ∨ last = 45 then none
      else if partlen > 63 ∨ partlen = 0 then none
      else isCookieDomainNameLoop rest 46 ok 0 := by
  rw [isCookieDomainNameLoop]
  simp

theorem getLast?_getD_of_isLabel {l : List Nat} (h : isLabel l) :
    l.getLast?.getD 46 ≠ 46 ∧ l.getLast?.getD 46 ≠ 45 := by
  obtain ⟨h1, _, h3, _, h5⟩ := h
  cases hl : l.getLast? with
  | none =>
    rw [List.getLast?_eq_none_iff] at hl
    rw [hl] at h1; simp at h1
  | some x =>
    have hx : x ∈ l := List.mem_of_getLast?_eq_some hl
    have := h3 x hx
    rw [hl] at h5
    simp only [Option.getD_some, ne_eq]
    constructor
    · unfold isLabelChar isLetter at this; omega
    · intro e; exact h5 (by rw [e])

theorem any_isLetter_append_dot (l r : List Nat) (ok : Bool) :
    ((ok || l.any (fun c => decide (isLetter c))) || r.any (fun c => decide (isLetter c))) =
      (ok || (l ++ 46 :: r).any (fun c => decide (isLetter c))) := by
  have : ¬ isLetter 46 := by unfold isLetter; omega
  simp [List.any_append, this, Bool.or_assoc]

theorem isCookieDomainNameLoop_labels (lastl : List Nat)
    (hchars : ∀ c ∈ lastl, isLabelChar c) (hhead : lastl.head? ≠ some 45) :
    ∀ (init : List (List Nat)) (ok : Bool), (∀ l ∈ init, isLabel l) →
      isCookieDomainNameLoop (Join (init ++ [lastl]) 46) 46 ok 0 =
        some (lastl.getLast?.getD 46,
          ok || (Join (init ++ [lastl]) 46).any (fun c => decide (isLetter c)),
          lastl.length) := by
  intro init
  induction init with
  | nil =>
    intro ok _
    rw [List.nil_append, Join, ← List.append_nil lastl,
      isCookieDomainNameLoop_label [] lastl 46 ok 0 hchars (fun _ => hhead)]
    simp [isCookieDomainNameLoop]
  | cons l init ih =>
    intro ok hall
    have hl : isLabel l := hall l (by simp)
    have hinit : ∀ x ∈ init, isLabel x := fun x hx => hall x (List.mem_cons_of_mem _ hx)
    rw [List.cons_append, Join_cons_of_ne_nil l 46 (by simp),
      isCookieDomainNameLoop_label _ l 46 ok 0 hl.2.2.1 (fun _ => hl.2.2.2.1),
      isCookieDomainNameLoop_dot]
    have hg := getLast?_getD_of_isLabel hl
    have h1 : ¬ (l.getLast?.getD 46 = 46 ∨ l.getLast?.getD 46 = 45) := by
      intro h; rcases h with h | h
      · exact hg.1 h
      · exact hg.2 h
    have h2 : ¬ (0 + l.length > 63 ∨ 0 + l.length = 0) := by
      have := hl.1; have := hl.2.1; omega
    rw [if_neg h1, if_neg h2, ih _ hinit, any_isLetter_append_dot]

theorem isCookieDomainNameLoop_labels_of_some (lastl : List Nat) :
    ∀ (init : List (List Nat)) (ok : Bool) (st : Nat × Bool × Nat),
      (∀ l ∈ init ++ [lastl], 46 ∉ l) →
      isCookieDomainNameLoop (Join (init ++ [lastl]) 46) 46 ok 0 = some st →
      (∀ l ∈ init, isLabel l) ∧ (∀ c ∈ lastl, isLabelChar c) ∧ lastl.head? ≠ some 45 := by
  intro init
  induction init with
  | nil =>
    intro ok st hdot hsome
    rw [List.nil_append, Join, ← List.append_nil lastl] at hsome
    have := isCookieDomainNameLoop_label_of_some [] lastl 46 ok 0 st (hdot lastl (by simp)) hsome
    exact ⟨by simp, this.1, this.2 rfl⟩
  | cons l init ih =>
    intro ok st hdot hsome
    have hl46 : 46 ∉ l := hdot l (by simp)
    have hrest : ∀ x ∈ init ++ [lastl], 46 ∉ x := fun x hx => hdot x (by
      rw [List.cons_append]; exact List.mem_cons_of_mem _ hx)
    rw [List.cons_append, Join_cons_of_ne_nil l 46 (by simp)] at hsome
    have h1 := isCookieDomainNameLoop_label_of_some _ l 46 ok 0 st hl46 hsome
    rw [isCookieDomainNameLoop_label _ l 46 ok 0 h1.1 h1.2, isCookieDomainNameLoop_dot] at hsome
    by_cases h2 : l.getLast?.getD 46 = 46 ∨ l.getLast?.getD 46 = 45
    · rw [if_pos h2] at hsome
      cases hsome
    · rw [if_neg h2] at hsome
      by_cases h3 : 0 + l.length > 63 ∨ 0 + l.length = 0
      · rw [if_pos h3] at hsome
        cases hsome
      · rw [if_neg h3] at hsome
        have h4 := ih _ st hrest hsome
        have hlabel : isLabel l := by
          refine ⟨by omega, by omega, h1.1, h1.2 rfl, ?_⟩
          intro e
          apply h2
          right
          rw [e]; rfl
        refine ⟨?_, h4.2⟩
        intro x hx
        rcases List.mem_cons.mp hx with rfl | hx
        · exact hlabel
        · exact h4.1 x hx

theorem exists_append_singleton_of_ne_nil {α : Type} (l : List α) (h : l ≠ []) :
    ∃ init lastl, l = init ++ [lastl] :=
  ⟨l.dropLast, l.getLast h, (List.dropLast_append_getLast h).symm⟩

theorem any_isLetter_iff (l : List Nat) :
    l.any (fun c => decide (isLetter c)) = true ↔ ∃ c ∈ l, isLetter c := by
  simp [List.any_eq_true]

theorem isCookieDomainName_cons (s0 : Nat) (t : List Nat) :
    isCookieDomainName (s0 :: t) =
      if (s0 :: t).length > 255 then false
      else if s0 ≠ 46 then false
      else
        match isCookieDomainNameLoop t s0 false 0 with
        | none => false
        | some (last, ok, partlen) =>
          if last = 45 ∨ partlen > 63 then false
          else if !ok then false
          else if Count (s0 :: t) 46 < 2 then false
          else true := rfl

/-- What `isCookieDomainName` accepts, exactly: a leading dot, at most 255
bytes, then labels separated by dots of which the last alone may be empty (a
trailing dot), at least two dots in all, and a letter somewhere. -/
theorem isCookieDomainName_iff (s : List Nat) :
    isCookieDomainName s = true ↔
      ∃ t init lastl, s = 46 :: t ∧ s.length ≤ 255 ∧ Split t 46 = init ++ [lastl] ∧
        (∀ l ∈ init, isLabel l) ∧ (lastl = [] ∨ isLabel lastl) ∧ 1 ≤ init.length ∧
        ∃ c ∈ s, isLetter c := by
  cases s with
  | nil => simp [isCookieDomainName]
  | cons s0 t =>
    obtain ⟨init, lastl, hsplit⟩ :=
      exists_append_singleton_of_ne_nil (Split t 46) (Split_ne_nil t 46)
    have hdot : ∀ l ∈ init ++ [lastl], 46 ∉ l := by
      rw [← hsplit]; exact not_mem_of_mem_Split t 46
    have hjoin : Join (init ++ [lastl]) 46 = t := by rw [← hsplit, Join_Split]
    have hcount : Count (s0 :: t) 46 = (if s0 = 46 then 1 else 0) + init.length := by
      have h1 := Split_length t 46
      rw [hsplit] at h1
      simp only [List.length_append, List.length_singleton] at h1
      unfold Count at h1 ⊢
      rw [List.count_cons]
      simp only [beq_iff_eq]
      omega
    have hnl : ¬ isLetter 46 := by unfold isLetter; omega
    constructor
    · intro h
      rw [isCookieDomainName_cons] at h
      by_cases h1 : (s0 :: t).length > 255
      · rw [if_pos h1] at h; cases h
      · rw [if_neg h1] at h
        by_cases h2 : s0 ≠ 46
        · rw [if_pos h2] at h; cases h
        · rw [if_neg h2] at h
          have h2' : s0 = 46 := not_not.mp h2
          subst h2'
          cases hloop : isCookieDomainNameLoop t 46 false 0 with
          | none => rw [hloop] at h; simp at h
          | some st =>
            have hloop' := hloop
            rw [← hjoin] at hloop'
            obtain ⟨hinit, hchars, hhead⟩ :=
              isCookieDomainNameLoop_labels_of_some lastl init false st hdot hloop'
            rw [isCookieDomainNameLoop_labels lastl hchars hhead init false hinit, hjoin] at hloop'
            rw [hloop, ← Option.some.inj hloop'] at h
            simp only [Bool.false_or] at h
            by_cases h3 : lastl.getLast?.getD 46 = 45 ∨ lastl.length > 63
            · rw [if_pos h3] at h; cases h
            · rw [if_neg h3] at h
              by_cases h4 : (!(t.any fun c => decide (isLetter c))) = true
              · rw [if_pos h4] at h; cases h
              · rw [if_neg h4] at h
                by_cases h5 : Count (46 :: t) 46 < 2
                · rw [if_pos h5] at h; cases h
                · refine ⟨t, init, lastl, rfl, by omega, hsplit, hinit, ?_, ?_, ?_⟩
                  · by_cases hl : lastl = []
                    · exact Or.inl hl
                    · right
                      refine ⟨?_, by omega, hchars, hhead, ?_⟩
                      · have := List.length_pos.mpr hl; omega
                      · intro e
                        apply h3; left; rw [e]; rfl
                  · rw [hcount] at h5; simp only [if_true] at h5; omega
                  · simp only [Bool.not_eq_true', Bool.not_eq_false] at h4
                    obtain ⟨c, hc, hcl⟩ := (any_isLetter_iff t).mp h4
                    exact ⟨c, List.mem_cons_of_mem _ hc, hcl⟩
    · rintro ⟨t', init', lastl', hs, hlen, hsplit', hinit, hlast, hn, c, hc, hcl⟩
      obtain ⟨rfl, rfl⟩ := List.cons.inj hs
      rw [hsplit] at hsplit'
      obtain ⟨rfl, hl⟩ := List.append_inj' hsplit' rfl
      obtain rfl : lastl = lastl' := by simpa using hl
      have hchars : ∀ c ∈ lastl, isLabelChar c := by
        rcases hlast with rfl | h
        · simp
        · exact h.2.2.1
      have hhead : lastl.head? ≠ some 45 := by
        rcases hlast with rfl | h
        · simp
        · exact h.2.2.2.1
      have hloop := isCookieDomainNameLoop_labels lastl hchars hhead init false hinit
      rw [hjoin] at hloop
      have hct : c ∈ t := by
        rcases List.mem_cons.mp hc with rfl | h
        · exact absurd hcl hnl
        · exact h
      have hany : (t.any fun c => decide (isLetter c)) = true :=
        (any_isLetter_iff t).mpr ⟨c, hct, hcl⟩
      have h3 : ¬ (lastl.getLast?.getD 46 = 45 ∨ lastl.length > 63) := by
        rcases hlast with rfl | h
        · simp
        · intro h'
          rcases h' with h' | h'
          · exact (getLast?_getD_of_isLabel h).2 h'
          · have := h.2.1; omega
      have h5 : ¬ Count (46 :: t) 46 < 2 := by
        rw [hcount]; simp only [if_true]; omega
      rw [isCookieDomainName_cons, if_neg (by omega), if_neg (by simp), hloop]
      simp only [Bool.false_or, hany]
      rw [if_neg h3, if_neg (by simp), if_neg h5]

theorem Split_append_singleton_sep (t : List Nat) (sep : Nat) :
    Split (t ++ [sep]) sep = Split t sep ++ [[]] := by
  induction t with
  | nil => simp [Split]
  | cons c t ih =>
    by_cases hc : c = sep
    · subst hc
      rw [List.cons_append, Split_cons_sep, Split_cons_sep, ih, List.cons_append]
    · obtain ⟨p, ps, hs⟩ := Split_exists_cons t sep
      rw [hs] at ih
      rw [List.cons_append, Split_cons_ne hc ih, Split_cons_ne hc hs]
      rfl

theorem eq_dropLast_append_of_getLast? {t : List Nat} {x : Nat} (h : t.getLast? = some x) :
    t = t.dropLast ++ [x] := by
  have hne : t ≠ [] := by
    intro e; rw [e] at h; simp at h
  have h2 := List.dropLast_append_getLast hne
  rw [List.getLast?_eq_getLast t hne] at h
  rw [Option.some.inj h] at h2
  exact h2.symm

theorem ParseIP_dot_cons (parseIPv6 : List Nat → Option (List Nat)) (t : List Nat) :
    ParseIP parseIPv6 (46 :: t) = none := by
  simp [ParseIP, ParseIPFrom, parseIPv4, parseIPv4Loop]

theorem ValidDomain_of_ParseIP_none (parseIPv6 : List Nat → Option (List Nat)) (s : List Nat)
    (h : ParseIP parseIPv6 s = none) :
    ValidDomain parseIPv6 s = isCookieDomainName s := by
  unfold ValidDomain
  rw [h]
  cases isCookieDomainName s <;> simp

theorem isCookieDomainName_iff_trailing_dot (s : List Nat)
    (hslt : ¬ isSingleLabelWithTrailingDot s) :
    isCookieDomainName s = true ↔ DomainNameGrammarTrailingDot s := by
  rw [isCookieDomainName_iff]
  unfold DomainNameGrammarTrailingDot
  constructor
  · rintro ⟨t, init, lastl, rfl, hlen, hsplit, hinit, hlast, hn, hletter⟩
    refine ⟨rfl, hlen, ?_⟩
    simp only [List.tail_cons]
    have hinit_ne : init ≠ [] := by
      intro e; rw [e] at hn; simp at hn
    by_cases hd : t.getLast? = some 46
    · -- trailing dot
      have ht := eq_dropLast_append_of_getLast? hd
      have h1 : Split t 46 = Split t.dropLast 46 ++ [[]] := by
        conv_lhs => rw [ht]
        exact Split_append_singleton_sep _ _
      rw [hsplit] at h1
      obtain ⟨e1, _⟩ := List.append_inj' h1 rfl
      simp only [dropTrailingDot, hd, if_true, ← e1]
      refine ⟨?_, hinit, hletter⟩
      by_contra hlt
      apply hslt
      refine ⟨rfl, hd, ?_⟩
      simp only [List.tail_cons]
      intro hmem
      have h2 := Split_length t.dropLast 46
      rw [← e1] at h2
      have : 0 < Count t.dropLast 46 := List.count_pos_iff.mpr hmem
      omega
    · have hlabel : isLabel lastl := by
        rcases hlast with rfl | h
        · exfalso
          apply hd
          have h1 := Join_Split t 46
          rw [hsplit] at h1
          obtain ⟨a, b, hab⟩ := exists_append_singleton_of_ne_nil init hinit_ne
          have h3 := Split_append_singleton_sep (Join init 46) 46
          rw [Split_Join init 46 hinit_ne (fun p hp => by
            have := not_mem_of_mem_Split t 46 p
            rw [hsplit] at this
            exact this (List.mem_append_left _ hp))] at h3
          have h4 := Join_Split (Join init 46 ++ [46]) 46
          rw [h3, h1] at h4
          rw [h4]
          simp
        · exact h
      simp only [dropTrailingDot, hd, if_false, hsplit]
      refine ⟨?_, ?_, hletter⟩
      · simp only [List.length_append, List.length_singleton]; omega
      · intro l hl
        rcases List.mem_append.mp hl with h | h
        · exact hinit l h
        · rw [List.mem_singleton.mp h]; exact hlabel
  · rintro ⟨hhead, hlen, hn, hall, hletter⟩
    cases s with
    | nil => simp at hhead
    | cons s0 t =>
      simp only [List.head?_cons, Option.some.injEq] at hhead
      subst hhead
      simp only [List.tail_cons] at hn hall
      by_cases hd : t.getLast? = some 46
      · have ht := eq_dropLast_append_of_getLast? hd
        simp only [dropTrailingDot, hd, if_true] at hn hall
        refine ⟨t, Split t.dropLast 46, [], rfl, hlen, ?_, hall, Or.inl rfl, by omega, hletter⟩
        conv_lhs => rw [ht]
        exact Split_append_singleton_sep _ _
      · simp only [dropTrailingDot, hd, if_false] at hn hall
        obtain ⟨init, lastl, hsplit⟩ :=
          exists_append_singleton_of_ne_nil (Split t 46) (Split_ne_nil t 46)
        rw [hsplit] at hn hall
        refine ⟨t, init, lastl, rfl, hlen, hsplit, fun l hl => hall l (List.mem_append_left _ hl),
          Or.inr (hall lastl (by simp)), ?_, hletter⟩
        simp only [List.length_append, List.length_singleton] at hn
        omega

/-- C1 fails as stated: `".example.com."` is no IP address literal and passes
`ValidDomain`, but the text after its leading dot splits into the labels
`example`, `com` and an empty one, so it does not satisfy the grammar. -/
theorem ValidDomain_grammar_counterexample :
    ¬ (∀ (parseIPv6 : List Nat → Option (List Nat)) (s : List Nat),
        ParseIP parseIPv6 s = none →
        (ValidDomain parseIPv6 s = true ↔ DomainNameGrammar s)) := by
  intro h
  have h1 := h (fun _ => none) (bytes ".example.com.") (by decide)
  have h2 : ValidDomain (fun _ => none) (bytes ".example.com.") = true := by decide
  have h3 : ¬ DomainNameGrammar (bytes ".example.com.") := by decide
  exact h3 (h1.mp h2)

/-- C1, amended. For every candidate `s` that is no IP address literal and is
not a single label between a leading and a trailing dot, `ValidDomain(s)` is
true if and only if `s` starts with `'.'`, `len(s) ≤ 255`, the text after the
leading dot, with one trailing dot removed if there is one, splits on `'.'`
into at least two labels, every label is 1 to 63 characters drawn from
`[A-Za-z0-9-]`, no label starts or ends with `'-'`, and `s` contains at least
one letter. -/
theorem ValidDomain_iff_grammar_trailing_dot
    (parseIPv6 : List Nat → Option (List Nat)) (s : List Nat)
    (hip : ParseIP parseIPv6 s = none) (hslt : ¬ isSingleLabelWithTrailingDot s) :
    ValidDomain parseIPv6 s = true ↔ DomainNameGrammarTrailingDot s := by
  rw [ValidDomain_of_ParseIP_none parseIPv6 s hip]
  exact isCookieDomainName_iff_trailing_dot s hslt

theorem ValidDomain_iff_grammar_trailing_dot_witness :
    (ParseIP (fun _ => none) (bytes ".example.com.") = none ∧
      ¬ isSingleLabelWithTrailingDot (bytes ".example.com.")) ∧
    (ValidDomain (fun _ => none) (bytes ".example.com.") = true ↔
      DomainNameGrammarTrailingDot (bytes ".example.com.")) :=
  ⟨⟨by decide, by decide⟩,
    ValidDomain_iff_grammar_trailing_dot (fun _ => none) (bytes ".example.com.")
      (by decide) (by decide)⟩

theorem Join_drop_length_le (sep : Nat) :
    ∀ (ls : List (List Nat)) (i : Nat), (Join (ls.drop i) sep).length ≤ (Join ls sep).length := by
  intro ls
  induction ls with
  | nil => intro i; simp
  | cons l ls ih =>
    intro i
    cases i with
    | zero => simp
    | succ i =>
      rw [List.drop_succ_cons]
      refine le_trans (ih i) ?_
      cases ls with
      | nil => simp [Join]
      | cons q qs =>
        rw [Join_cons_cons]
        simp only [List.length_append, List.length_cons]
        omega

/-- C6 fails as stated: the host `a.1.2.3` is valid (`".a.1.2.3"` passes
`ValidDomain`), its domain variants are `""`, `".a.1.2.3"`, `".1.2.3"` and
`".2.3"`, and `".1.2.3"`, which is not the shortest, fails `ValidDomain`: it
holds no letter. -/
theorem domainVariants_valid_counterexample :
    ¬ (∀ (parseIPv6 : List Nat → Option (List Nat)) (fuel : Nat) (host : List Nat)
        (D : List (List Nat)),
        ValidDomain parseIPv6 (46 :: host) = true →
        domainVariants fuel host = Outcome.ok D →
        ∀ e ∈ D.dropLast, e ≠ [] → ValidDomain parseIPv6 e = true) := by
  intro h
  have h1 : domainVariants 10 (bytes "a.1.2.3") =
      Outcome.ok [[], bytes ".a.1.2.3", bytes ".1.2.3", bytes ".2.3"] := by decide
  have h2 := h (fun _ => none) 10 (bytes "a.1.2.3") _ (by decide) h1 (bytes ".1.2.3")
    (by decide) (by decide)
  revert h2
  decide

/-- C6, amended. For every valid host `h` (one whose dot-prefixed form
`"." + h` passes `ValidDomain`), a non-empty entry of the domain-variant list
built by `DeepDelete` passes `ValidDomain` if and only if it contains at least
one letter; this covers every entry, the shortest included. -/
theorem domainVariants_valid_iff_letter
    (parseIPv6 : List Nat → Option (List Nat)) (fuel : Nat) (host : List Nat)
    (hf : host.length + 1 ≤ fuel) (hvalid : ValidDomain parseIPv6 (46 :: host) = true) :
    ∃ D, domainVariants fuel host = Outcome.ok D ∧
      ∀ e ∈ D, e ≠ [] → (ValidDomain parseIPv6 e = true ↔ ∃ c ∈ e, isLetter c) := by
  refine ⟨_, domainVariants_ok fuel host hf, ?_⟩
  rw [ValidDomain_of_ParseIP_none parseIPv6 _ (ParseIP_dot_cons parseIPv6 host),
    isCookieDomainName_iff] at hvalid
  obtain ⟨t, init, lastl, hs, hlen, hsplit, hinit, hlast, hn, _⟩ := hvalid
  obtain rfl : host = t := (List.cons.inj hs).2
  intro e he hne
  rcases List.mem_cons.mp he with rfl | he
  · exact absurd rfl hne
  · obtain ⟨i, hi, rfl⟩ := List.mem_map.mp he
    have hi' : i < max ((Split host 46).length - 1) 1 := List.mem_range.mp hi
    rw [hsplit] at hi' ⊢
    simp only [List.length_append, List.length_singleton] at hi'
    have hile : i ≤ init.length := by omega
    rw [List.drop_append_of_le_length hile]
    rw [ValidDomain_of_ParseIP_none parseIPv6 _ (ParseIP_dot_cons parseIPv6 _),
      isCookieDomainName_iff]
    have hdot : ∀ p ∈ init.drop i ++ [lastl], 46 ∉ p := by
      intro p hp
      have := not_mem_of_mem_Split host 46 p
      rw [hsplit] at this
      apply this
      rcases List.mem_append.mp hp with h | h
      · exact List.mem_append_left _ (List.mem_of_mem_drop h)
      · exact List.mem_append_right _ h
    constructor
    · rintro ⟨_, _, _, _, _, _, _, _, _, hl⟩
      exact hl
    · intro hl
      refine ⟨_, init.drop i, lastl, rfl, ?_, Split_Join _ 46 (by simp) hdot,
        fun l hl' => hinit l (List.mem_of_mem_drop hl'), hlast, ?_, hl⟩
      · have h1 := Join_drop_length_le 46 (init ++ [lastl]) i
        rw [List.drop_append_of_le_length hile, ← hsplit, Join_Split] at h1
        simp only [List.length_cons] at hlen ⊢
        omega
      · rw [List.length_drop]; omega

theorem domainVariants_valid_iff_letter_witness :
    ValidDomain (fun _ => none) (46 :: bytes "a.1.2.3") = true ∧
    ∃ D, domainVariants 10 (bytes "a.1.2.3") = Outcome.ok D ∧
      ∀ e ∈ D, e ≠ [] →
        (ValidDomain (fun _ => none) e = true ↔ ∃ c ∈ e, isLetter c) :=
  ⟨by decide,
    domainVariants_valid_iff_letter (fun _ => none) 10 (bytes "a.1.2.3") (by decide) (by decide)⟩

/-! ## `path.Clean` and `path.Dir` -/

theorem cleanLoop_nil (rooted : Bool) (fuel : Nat) (out : List Nat) (dotdot : Nat) :
    cleanLoop rooted fuel [] out dotdot = Outcome.ok out := by
  cases fuel <;> rfl

theorem cleanLoop_succ_cons (rooted : Bool) (fuel c : Nat) (t out : List Nat) (dotdot : Nat) :
    cleanLoop rooted (fuel + 1) (c :: t) out dotdot =
      if c = 47 then cleanLoop rooted fuel t out dotdot
      else if c = 46 ∧ (t = [] ∨ t.head? = some 47) then cleanLoop rooted fuel t out dotdot
      else if c = 46 ∧ t.head? = some 46 ∧ (t.tail = [] ∨ t.tail.head? = some 47) then
        if out.length > dotdot then
          cleanLoop rooted fuel t.tail
            (out.take (backtrackLoop out dotdot (out.length - 1))) dotdot
        else if !rooted then
          cleanLoop rooted fuel t.tail
            ((if out.length > 0 then out ++ [47] else out) ++ [46, 46])
            ((if out.length > 0 then out ++ [47] else out) ++ [46, 46]).length
        else cleanLoop rooted fuel t.tail out dotdot
      else
        cleanLoop rooted fuel ((c :: t).dropWhile (fun b => decide (b ≠ 47)))
          ((if (rooted && decide (out.length ≠ 1)) || (!rooted && decide (out.length ≠ 0))
              then out ++ [47] else out)
            ++ (c :: t).takeWhile (fun b => decide (b ≠ 47)))
          dotdot := rfl

theorem backtrackLoop_le (buf : List Nat) (dotdot : Nat) :
    ∀ w, backtrackLoop buf dotdot w ≤ w := by
  intro w
  induction w with
  | zero => simp [backtrackLoop]
  | succ w ih =>
    rw [backtrackLoop]
    split_ifs
    · omega
    · exact le_refl _

theorem dropWhile_ne_slash_head (l : List Nat) :
    l.dropWhile (fun b => decide (b ≠ 47)) = [] ∨
      (l.dropWhile (fun b => decide (b ≠ 47))).head? = some 47 := by
  induction l with
  | nil => simp
  | cons c l ih =>
    by_cases hc : c = 47
    · right; simp [List.dropWhile, hc]
    · simpa [List.dropWhile, hc] using ih

theorem length_takeWhile_add_dropWhile (p : Nat → Bool) (l : List Nat) :
    (l.takeWhile p).length + (l.dropWhile p).length = l.length := by
  rw [← List.length_append, List.takeWhile_append_dropWhile]

theorem dropWhile_getLast?_slash (l : List Nat) (h : l.getLast? = some 47) :
    (l.dropWhile (fun b => decide (b ≠ 47))).getLast? = some 47 := by
  induction l with
  | nil => simp at h
  | cons c l ih =>
    by_cases hc : c = 47
    · simpa [List.dropWhile, hc] using h
    · have hl : l ≠ [] := by
        intro e; rw [e] at h; simp at h; exact hc h
      obtain ⟨d, l', rfl⟩ := List.exists_cons_of_ne_nil hl
      rw [List.getLast?_cons_cons] at h
      simpa [List.dropWhile, hc] using ih h

theorem getLast?_cons_ne_nil {c : Nat} {t : List Nat} (h : t ≠ []) :
    (c :: t).getLast? = t.getLast? := by
  obtain ⟨d, l', rfl⟩ := List.exists_cons_of_ne_nil h
  exact List.getLast?_cons_cons

theorem cleanLoop_bound (rooted : Bool) :
    ∀ (fuel : Nat) (rest out : List Nat) (dotdot b : Nat),
      rest.length ≤ fuel → out.length ≤ b →
      (rest ≠ [] → rest.head? ≠ some 47 →
        ((rooted && decide (out.length ≠ 1)) || (!rooted && decide (out.length ≠ 0))) = true →
        out.length + 1 ≤ b) →
      ∃ out', cleanLoop rooted fuel rest out dotdot = Outcome.ok out' ∧
        out'.length + (if rest.getLast? = some 47 then 1 else 0) ≤ b + rest.length := by
  intro fuel
  induction fuel with
  | zero =>
    intro rest out dotdot b hf hb _
    have : rest = [] := List.length_eq_zero.mp (by omega)
    subst this
    exact ⟨out, cleanLoop_nil _ _ _ _, by simpa using hb⟩
  | succ fuel ih =>
    intro rest out dotdot b hf hb hstart
    cases rest with
    | nil => exact ⟨out, cleanLoop_nil _ _ _ _, by simpa using hb⟩
    | cons c t =>
      rw [cleanLoop_succ_cons]
      simp only [List.length_cons] at hf ⊢
      by_cases h1 : c = 47
      · -- empty path element
        rw [if_pos h1]
        by_cases ht : t = []
        · subst ht
          exact ⟨out, cleanLoop_nil _ _ _ _, by simp [h1]; omega⟩
        · obtain ⟨out', he, hle⟩ := ih t out dotdot (b + 1) (by omega) (by omega)
            (fun _ _ _ => by omega)
          refine ⟨out', he, ?_⟩
          rw [getLast?_cons_ne_nil ht]
          omega
      · rw [if_neg h1]
        by_cases h2 : c = 46 ∧ (t = [] ∨ t.head? = some 47)
        · -- . element
          rw [if_pos h2]
          obtain ⟨out', he, hle⟩ := ih t out dotdot (b + 1) (by omega) (by omega)
            (fun hne hhd _ => by
              rcases h2.2 with h | h
              · exact absurd h hne
              · exact absurd h hhd)
          refine ⟨out', he, ?_⟩
          by_cases ht : t = []
          · subst ht
            have : ¬ ([c].getLast? = some 47) := by simp [h1]
            rw [if_neg this]
            simp only [List.getLast?_nil] at hle
            simp only [List.length_nil] at hle ⊢
            omega
          · rw [getLast?_cons_ne_nil ht]
            omega
        · rw [if_neg h2]
          by_cases h3 : c = 46 ∧ t.head? = some 46 ∧ (t.tail = [] ∨ t.tail.head? = some 47)
          · -- .. element
            rw [if_pos h3]
            obtain ⟨d, t', rfl⟩ : ∃ d t', t = d :: t' := by
              cases t with
              | nil => simp at h3
              | cons d t' => exact ⟨d, t', rfl⟩
            simp only [List.tail_cons, List.length_cons] at h3 hf ⊢
            have hd : d = 46 := by simpa using h3.2.1
            have hnext : t' ≠ [] → t'.head? ≠ some 47 → False := by
              intro hne hhd
              rcases h3.2.2 with h | h
              · exact hne h
              · exact hhd h
            have hlast : (if (c :: d :: t').getLast? = some 47 then 1 else 0) ≤
                (if t'.getLast? = some 47 then 1 else 0) := by
              by_cases ht : t' = []
              · subst ht
                simp [hd]
              · rw [List.getLast?_cons_cons, getLast?_cons_ne_nil ht]
            by_cases h4 : out.length > dotdot
            · rw [if_pos h4]
              have hbt := backtrackLoop_le out dotdot (out.length - 1)
              obtain ⟨out', he, hle⟩ := ih t'
                (out.take (backtrackLoop out dotdot (out.length - 1))) dotdot (b + 2)
                (by omega) (by rw [List.length_take]; omega)
                (fun hne hhd _ => (hnext hne hhd).elim)
              exact ⟨out', he, by omega⟩
            · rw [if_neg h4]
              cases rooted with
              | true =>
                simp only [Bool.not_true, Bool.false_eq_true, if_false]
                obtain ⟨out', he, hle⟩ := ih t' out dotdot (b + 2) (by omega) (by omega)
                  (fun hne hhd _ => (hnext hne hhd).elim)
                exact ⟨out', he, by omega⟩
              | false =>
                simp only [Bool.not_false, if_true]
                have hs := hstart (by simp) (by simp [h1])
                simp only [Bool.false_and, Bool.not_false, Bool.true_and, Bool.false_or,
                  decide_eq_true_eq] at hs
                have hlen : ((if out.length > 0 then out ++ [47] else out) ++ [46, 46]).length
                    ≤ b + 2 := by
                  by_cases h0 : out.length > 0
                  · rw [if_pos h0]
                    have := hs (by omega)
                    simp only [List.length_append, List.length_cons, List.length_nil]
                    omega
                  · rw [if_neg h0]
                    simp only [List.length_append, List.length_cons, List.length_nil]
                    omega
                obtain ⟨out', he, hle⟩ := ih t'
                  ((if out.length > 0 then out ++ [47] else out) ++ [46, 46])
                  ((if out.length > 0 then out ++ [47] else out) ++ [46, 46]).length (b + 2)
                  (by omega) hlen (fun hne hhd _ => (hnext hne hhd).elim)
                exact ⟨out', he, by omega⟩
          · -- real path element
            rw [if_neg h3]
            have htw := length_takeWhile_add_dropWhile (fun b => decide (b ≠ 47)) (c :: t)
            have htwpos : 1 ≤ ((c :: t).takeWhile (fun b => decide (b ≠ 47))).length := by
              simp [List.takeWhile, h1]
            simp only [List.length_cons] at htw
            have hs := hstart (by simp) (by simp [h1])
            have hlen : ((if (rooted && decide (out.length ≠ 1)) ||
                (!rooted && decide (out.length ≠ 0)) then out ++ [47] else out)
                ++ (c :: t).takeWhile (fun b => decide (b ≠ 47))).length
                ≤ b + ((c :: t).takeWhile (fun b => decide (b ≠ 47))).length := by
              by_cases hn : ((rooted && decide (out.length ≠ 1)) ||
                  (!rooted && decide (out.length ≠ 0))) = true
              · rw [if_pos hn]
                have := hs hn
                simp only [List.length_append, List.length_cons, List.length_nil]
                omega
              · rw [if_neg hn]
                simp only [List.length_append]
                omega
            obtain ⟨out', he, hle⟩ := ih ((c :: t).dropWhile (fun b => decide (b ≠ 47))) _ dotdot
              (b + ((c :: t).takeWhile (fun b => decide (b ≠ 47))).length)
              (by omega) hlen
              (fun hne hhd _ => by
                rcases dropWhile_ne_slash_head (c :: t) with h | h
                · exact absurd h hne
                · exact absurd h hhd)
            refine ⟨out', he, ?_⟩
            by_cases hl : (c :: t).getLast? = some 47
            · rw [dropWhile_getLast?_slash _ hl] at hle
              rw [if_pos hl]
              simp only [if_true] at hle
              omega
            · rw [if_neg hl]
              have : out'.length ≤ b + ((c :: t).takeWhile (fun b => decide (b ≠ 47))).length +
                  ((c :: t).dropWhile (fun b => decide (b ≠ 47))).length := by
                split_ifs at hle <;> omega
              omega

theorem Clean_nil (fuel : Nat) : Clean fuel [] = Outcome.ok [46] := by
  simp [Clean]

theorem Clean_bound (fuel : Nat) (path : List Nat) (hne : path ≠ []) (hf : path.length ≤ fuel) :
    ∃ r, Clean fuel path = Outcome.ok r ∧ r.length ≤ path.length ∧
      (path.getLast? = some 47 → 2 ≤ path.length → r.length < path.length) := by
  obtain ⟨c, t, rfl⟩ := List.exists_cons_of_ne_nil hne
  unfold Clean
  rw [if_neg hne]
  simp only [List.length_cons] at hf ⊢
  by_cases hr : (c :: t).head? = some 47
  · rw [if_pos hr]
    simp only [List.drop_succ_cons, List.drop_zero]
    obtain ⟨out', he, hle⟩ := cleanLoop_bound true fuel t [47] 1 1 (by omega) (by simp)
      (fun _ _ h => by simp at h)
    rw [he]
    by_cases h0 : out'.length = 0
    · simp only [h0, if_true]
      refine ⟨_, rfl, by simp, ?_⟩
      intro _ h2
      simp only [List.length_singleton]
      omega
    · simp only [h0, if_false]
      refine ⟨_, rfl, by split_ifs at hle <;> omega, ?_⟩
      intro hl h2
      have ht : t ≠ [] := by
        intro e; subst e; simp at h2
      rw [getLast?_cons_ne_nil ht] at hl
      rw [if_pos hl] at hle
      omega
  · rw [if_neg hr]
    obtain ⟨out', he, hle⟩ := cleanLoop_bound false fuel (c :: t) [] 0 0 (by simpa using hf)
      (by simp) (fun _ _ h => by simp at h)
    rw [he]
    simp only [List.length_cons] at hle
    by_cases h0 : out'.length = 0
    · simp only [h0, if_true]
      refine ⟨_, rfl, by simp, ?_⟩
      intro _ h2
      simp only [List.length_singleton]
      omega
    · simp only [h0, if_false]
      refine ⟨_, rfl, by split_ifs at hle <;> omega, ?_⟩
      intro hl _
      rw [if_pos hl] at hle
      omega

theorem LastIndexByte_of_not_mem (s : List Nat) (c : Nat) (h : c ∉ s) :
    LastIndexByte s c = -1 := by
  induction s with
  | nil => rfl
  | cons b t ih =>
    have hb : b ≠ c := fun e => h (by simp [e])
    have ht : c ∉ t := fun e => h (List.mem_cons_of_mem _ e)
    rw [LastIndexByte, ih ht]
    simp [hb]

theorem LastIndexByte_append_cons (pre seg : List Nat) (c : Nat) (h : c ∉ seg) :
    LastIndexByte (pre ++ c :: seg) c = pre.length := by
  induction pre with
  | nil =>
    rw [List.nil_append, LastIndexByte, LastIndexByte_of_not_mem seg c h]
    simp
  | cons b pre ih =>
    rw [List.cons_append, LastIndexByte, ih]
    simp only [List.length_cons, Nat.cast_add, Nat.cast_one]
    rw [if_pos (by omega)]

theorem exists_last_occurrence (s : List Nat) (c : Nat) (h : c ∈ s) :
    ∃ pre seg, s = pre ++ c :: seg ∧ c ∉ seg := by
  induction s with
  | nil => simp at h
  | cons b t ih =>
    by_cases ht : c ∈ t
    · obtain ⟨pre, seg, hs, hseg⟩ := ih ht
      exact ⟨b :: pre, seg, by rw [hs]; rfl, hseg⟩
    · have hb : b = c := by
        rcases List.mem_cons.mp h with e | e
        · exact e.symm
        · exact absurd e ht
      exact ⟨[], t, by rw [hb]; rfl, ht⟩

theorem dirPart_of_not_mem (s : List Nat) (h : 47 ∉ s) :
    s.take (LastIndexByte s 47 + 1).toNat = [] := by
  rw [LastIndexByte_of_not_mem s 47 h]
  simp

theorem dirPart_append_cons (pre seg : List Nat) (h : 47 ∉ seg) :
    (pre ++ 47 :: seg).take (LastIndexByte (pre ++ 47 :: seg) 47 + 1).toNat = pre ++ [47] := by
  rw [LastIndexByte_append_cons pre seg 47 h]
  have : ((pre.length : Int) + 1).toNat = (pre ++ [47]).length := by
    simp only [List.length_append, List.length_singleton]
    omega
  rw [this]
  have e : pre ++ 47 :: seg = (pre ++ [47]) ++ seg := by simp
  rw [e, List.take_left]

theorem Dir_bound (fuel : Nat) (path : List Nat) (hf : path.length ≤ fuel)
    (hstop : ¬ (path = [] ∨ path = [46] ∨ path = [47])) :
    ∃ d, Dir fuel path = Outcome.ok d ∧ (d = [46] ∨ d.length < path.length) := by
  unfold Dir
  by_cases hs : 47 ∈ path
  · obtain ⟨pre, seg, rfl, hseg⟩ := exists_last_occurrence path 47 hs
    rw [dirPart_append_cons pre seg hseg]
    simp only [List.length_append, List.length_cons] at hf
    obtain ⟨r, he, hle, hlt⟩ := Clean_bound fuel (pre ++ [47]) (by simp)
      (by simp only [List.length_append, List.length_singleton]; omega)
    refine ⟨r, he, Or.inr ?_⟩
    have hl1 : (pre ++ [47]).length = pre.length + 1 := by simp
    have hl2 : (pre ++ 47 :: seg).length = pre.length + seg.length + 1 := by
      simp only [List.length_append, List.length_cons]; omega
    rw [hl1] at hle hlt
    rw [hl2]
    by_cases h0 : seg = []
    · subst h0
      have hpre : pre ≠ [] := by
        intro e; subst e; exact hstop (Or.inr (Or.inr rfl))
      have := List.length_pos.mpr hpre
      have := hlt (by simp) (by omega)
      simp only [List.length_nil]
      omega
    · have := List.length_pos.mpr h0
      omega
  · rw [dirPart_of_not_mem path hs, Clean_nil]
    exact ⟨_, rfl, Or.inl rfl⟩

theorem pathLoop_ok (fuel : Nat) :
    ∀ (n : Nat) (paths : List (List Nat)) (tempPath : List Nat),
      tempPath.length ≤ fuel → 1 ≤ n →
      (¬ (tempPath = [] ∨ tempPath = [46] ∨ tempPath = [47]) → tempPath.length + 1 ≤ n) →
      ∃ P, pathLoop fuel n paths tempPath = Outcome.ok P := by
  intro n
  induction n with
  | zero => intro _ _ _ h; omega
  | succ n ih =>
    intro paths tempPath hf _ hn
    rw [pathLoop]
    by_cases hstop : tempPath = [] ∨ tempPath = [46] ∨ tempPath = [47]
    · rw [if_pos hstop]; exact ⟨_, rfl⟩
    · rw [if_neg hstop]
      have hlen := hn hstop
      obtain ⟨d, hd, hcase⟩ := Dir_bound fuel tempPath hf hstop
      rw [hd]
      have hpos : 1 ≤ tempPath.length := by
        have : tempPath ≠ [] := fun e => hstop (Or.inl e)
        exact List.length_pos.mpr this
      rcases hcase with rfl | hlt
      · exact ih _ _ (by simp only [List.length_singleton]; omega) (by omega)
          (fun h => absurd (Or.inr (Or.inl rfl)) h)
      · exact ih _ _ (by omega) (by omega) (fun _ => by omega)

theorem pathVariants_ok (fuel : Nat) (urlPath : List Nat) (hf : urlPath.length + 1 ≤ fuel) :
    ∃ P, pathVariants fuel urlPath = Outcome.ok P :=
  pathLoop_ok fuel fuel _ urlPath (by omega) (by omega) (fun _ => hf)

/-! ## The directives of `DeepDelete` -/

theorem DeepDelete_ok (fuel : Nat) (cookieName host urlPath : List Nat)
    (hh : host.length + 1 ≤ fuel) (hp : urlPath.length + 1 ≤ fuel) :
    ∃ D P, domainVariants fuel host = Outcome.ok D ∧ pathVariants fuel urlPath = Outcome.ok P ∧
      DeepDelete fuel cookieName host urlPath = Outcome.ok (emitCookies cookieName D P) := by
  obtain ⟨P, hP⟩ := pathVariants_ok fuel urlPath hp
  have hD := domainVariants_ok fuel host hh
  refine ⟨_, P, hD, hP, ?_⟩
  unfold DeepDelete
  rw [hD, hP]

theorem emitCookies_length (cookieName : List Nat) (D P : List (List Nat)) :
    (emitCookies cookieName D P).length = D.length * P.length := by
  unfold emitCookies
  induction D with
  | nil => simp
  | cons d D ih =>
    rw [List.flatMap_cons, List.length_append, ih, List.length_map, List.length_cons]
    rw [Nat.add_mul, Nat.one_mul, Nat.add_comm]

theorem emitCookies_getElem? (cookieName : List Nat) (P : List (List Nat)) :
    ∀ (D : List (List Nat)) (i j : Nat) (d p : List Nat), D[i]? = some d → P[j]? = some p →
      (emitCookies cookieName D P)[i * P.length + j]? = some (deleteCookie cookieName d p) := by
  intro D
  induction D with
  | nil => intro i j d p hd _; simp at hd
  | cons d0 D ih =>
    intro i j d p hd hp
    have hj : j < P.length := (List.getElem?_eq_some.mp hp).1
    unfold emitCookies at ih ⊢
    rw [List.flatMap_cons]
    cases i with
    | zero =>
      simp only [List.getElem?_cons_zero, Option.some.injEq] at hd
      subst hd
      rw [Nat.zero_mul, Nat.zero_add, List.getElem?_append_left (by simpa using hj),
        List.getElem?_map, hp]
      rfl
    | succ i =>
      simp only [List.getElem?_cons_succ] at hd
      have e : (i + 1) * P.length + j = (List.map (fun path => deleteCookie cookieName d0 path) P).length
          + (i * P.length + j) := by
        rw [List.length_map, Nat.add_mul, Nat.one_mul]; omega
      rw [e, List.getElem?_append_right (Nat.le_add_right _ _), Nat.add_sub_cancel_left]
      exact ih i j d p hd hp

theorem mem_emitCookies {cookieName : List Nat} {D P : List (List Nat)} {c : Cookie}
    (h : c ∈ emitCookies cookieName D P) :
    ∃ d ∈ D, ∃ p ∈ P, c = deleteCookie cookieName d p := by
  unfold emitCookies at h
  obtain ⟨d, hd, hc⟩ := List.mem_flatMap.mp h
  obtain ⟨p, hp, rfl⟩ := List.mem_map.mp hc
  exact ⟨d, hd, p, hp, rfl⟩

/-- C4. For every cookie name, request host and request path, the directives
`DeepDelete` emits are the Cartesian product of its domain-variant list `D` and
its path-variant list `P`, domain-outer and path-inner: there are
`len(D) * len(P)` of them and the one at index `i * len(P) + j` has
`Domain = D[i]` and `Path = P[j]`. -/
theorem DeepDelete_cartesian (fuel : Nat) (cookieName host urlPath : List Nat)
    (hh : host.length + 1 ≤ fuel) (hp : urlPath.length + 1 ≤ fuel) :
    ∃ D P L, domainVariants fuel host = Outcome.ok D ∧
      pathVariants fuel urlPath = Outcome.ok P ∧
      DeepDelete fuel cookieName host urlPath = Outcome.ok L ∧
      L.length = D.length * P.length ∧
      ∀ (i j : Nat) (d p : List Nat), D[i]? = some d → P[j]? = some p →
        ∃ c, L[i * P.length + j]? = some c ∧ c.Domain = d ∧ c.Path = p := by
  obtain ⟨D, P, hD, hP, hL⟩ := DeepDelete_ok fuel cookieName host urlPath hh hp
  refine ⟨D, P, _, hD, hP, hL, emitCookies_length cookieName D P, ?_⟩
  intro i j d p hd hpj
  exact ⟨_, emitCookies_getElem? cookieName P D i j d p hd hpj, rfl, rfl⟩

theorem DeepDelete_cartesian_witness :
    ∃ D P L, domainVariants 18 (bytes "www.example.com") = Outcome.ok D ∧
      pathVariants 18 (bytes "/account/settings") = Outcome.ok P ∧
      DeepDelete 18 (bytes "sid") (bytes "www.example.com") (bytes "/account/settings")
        = Outcome.ok L ∧
      L.length = D.length * P.length ∧
      ∀ (i j : Nat) (d p : List Nat), D[i]? = some d → P[j]? = some p →
        ∃ c, L[i * P.length + j]? = some c ∧ c.Domain = d ∧ c.Path = p :=
  DeepDelete_cartesian 18 (bytes "sid") (bytes "www.example.com") (bytes "/account/settings")
    (by decide) (by decide)

/-- C10. Every directive `DeepDelete` emits has `Name` equal to the given
`cookieName`, an empty `Value`, `MaxAge = -1` (strictly negative, never `0`),
`Secure = true` and `HttpOnly = true`; two directives with the same `Domain`
and `Path` are equal, so only `Domain` and `Path` differ between directives. -/
theorem DeepDelete_directive_fields (fuel : Nat) (cookieName host urlPath : List Nat)
    (hh : host.length + 1 ≤ fuel) (hp : urlPath.length + 1 ≤ fuel) :
    ∃ L, DeepDelete fuel cookieName host urlPath = Outcome.ok L ∧
      (∀ c ∈ L, c.Name = cookieName ∧ c.Value = [] ∧ c.MaxAge = -1 ∧ c.MaxAge < 0 ∧
        c.MaxAge ≠ 0 ∧ c.Secure = true ∧ c.HttpOnly = true) ∧
      (∀ c ∈ L, ∀ c' ∈ L, c.Domain = c'.Domain → c.Path = c'.Path → c = c') := by
  obtain ⟨D, P, _, _, hL⟩ := DeepDelete_ok fuel cookieName host urlPath hh hp
  refine ⟨_, hL, ?_, ?_⟩
  · intro c hc
    obtain ⟨d, _, p, _, rfl⟩ := mem_emitCookies hc
    simp [deleteCookie]
  · intro c hc c' hc' hd hpth
    obtain ⟨d, _, p, _, rfl⟩ := mem_emitCookies hc
    obtain ⟨d', _, p', _, rfl⟩ := mem_emitCookies hc'
    simp only [deleteCookie] at hd hpth ⊢
    rw [hd, hpth]

theorem DeepDelete_directive_fields_witness :
    ∃ L, DeepDelete 18 (bytes "sid") (bytes "www.example.com") (bytes "/account/settings")
        = Outcome.ok L ∧
      (∀ c ∈ L, c.Name = bytes "sid" ∧ c.Value = [] ∧ c.MaxAge = -1 ∧ c.MaxAge < 0 ∧
        c.MaxAge ≠ 0 ∧ c.Secure = true ∧ c.HttpOnly = true) ∧
      (∀ c ∈ L, ∀ c' ∈ L, c.Domain = c'.Domain → c.Path = c'.Path → c = c') :=
  DeepDelete_directive_fields 18 (bytes "sid") (bytes "www.example.com")
    (bytes "/account/settings") (by decide) (by decide)

/-! ## Clean absolute paths -/

theorem takeWhile_ne_slash_append (seg rest : List Nat) (hseg : 47 ∉ seg)
    (hrest : rest = [] ∨ rest.head? = some 47) :
    (seg ++ rest).takeWhile (fun b => decide (b ≠ 47)) = seg ∧
    (seg ++ rest).dropWhile (fun b => decide (b ≠ 47)) = rest := by
  induction seg with
  | nil =>
    rcases hrest with rfl | h
    · simp
    · cases rest with
      | nil => simp
      | cons r rest =>
        simp only [List.head?_cons, Option.some.injEq] at h
        subst h
        simp [List.takeWhile, List.dropWhile]
  | cons c seg ih =>
    have hc : c ≠ 47 := fun e => hseg (by simp [e])
    have hs : 47 ∉ seg := fun e => hseg (List.mem_cons_of_mem _ e)
    obtain ⟨h1, h2⟩ := ih hs
    have hp : decide (c ≠ 47) = true := decide_eq_true hc
    constructor
    · rw [List.cons_append, List.takeWhile_cons]
      simp only [hp, if_true, h1]
    · rw [List.cons_append, List.dropWhile_cons]
      simp only [hp, if_true, h2]

theorem cleanLoop_segment (rooted : Bool) (fuel : Nat) (seg rest out : List Nat) (dotdot : Nat)
    (hseg : isCleanSegment seg) (hrest : rest = [] ∨ rest.head? = some 47) :
    cleanLoop rooted (fuel + 1) (seg ++ rest) out dotdot =
      cleanLoop rooted fuel rest
        ((if (rooted && decide (out.length ≠ 1)) || (!rooted && decide (out.length ≠ 0))
            then out ++ [47] else out) ++ seg) dotdot := by
  obtain ⟨hne, hslash, hdot, hdotdot⟩ := hseg
  obtain ⟨h1, h2⟩ := takeWhile_ne_slash_append seg rest hslash hrest
  obtain ⟨c, s', rfl⟩ := List.exists_cons_of_ne_nil hne
  have hc : c ≠ 47 := fun e => hslash (by simp [e])
  have hs' : 47 ∉ s' := fun e => hslash (List.mem_cons_of_mem _ e)
  rw [List.cons_append] at h1 h2 ⊢
  rw [cleanLoop_succ_cons, if_neg hc]
  have c2 : ¬ (c = 46 ∧ (s' ++ rest = [] ∨ (s' ++ rest).head? = some 47)) := by
    rintro ⟨e, h⟩
    subst e
    cases s' with
    | nil => exact hdot rfl
    | cons d s'' =>
      rcases h with h | h
      · simp at h
      · simp only [List.cons_append, List.head?_cons, Option.some.injEq] at h
        exact hs' (by simp [h])
  have c3 : ¬ (c = 46 ∧ (s' ++ rest).head? = some 46 ∧
      ((s' ++ rest).tail = [] ∨ (s' ++ rest).tail.head? = some 47)) := by
    rintro ⟨e, h, h'⟩
    subst e
    cases s' with
    | nil =>
      rcases hrest with rfl | hr
      · simp at h
      · rw [List.nil_append, hr] at h
        simp at h
    | cons d s'' =>
      simp only [List.cons_append, List.head?_cons, Option.some.injEq] at h
      subst h
      simp only [List.cons_append, List.tail_cons] at h'
      cases s'' with
      | nil => exact hdotdot rfl
      | cons e s3 =>
        rcases h' with h' | h'
        · simp at h'
        · simp only [List.cons_append, List.head?_cons, Option.some.injEq] at h'
          exact hs' (by simp [h'])
  rw [if_neg c2, if_neg c3, h1, h2]

theorem Join_append_singleton (done : List (List Nat)) (seg : List Nat) (sep : Nat)
    (h : done ≠ []) : Join (done ++ [seg]) sep = Join done sep ++ sep :: seg := by
  induction done with
  | nil => exact absurd rfl h
  | cons d done ih =>
    cases done with
    | nil => rfl
    | cons e done =>
      rw [List.cons_append, Join_cons_of_ne_nil d sep (by simp), ih (by simp), Join_cons_cons,
        List.append_assoc]
      rfl

theorem Join_ne_nil (ls : List (List Nat)) (sep : Nat) (hne : ls ≠ [])
    (h : ∀ s ∈ ls, s ≠ []) : Join ls sep ≠ [] := by
  cases ls with
  | nil => exact absurd rfl hne
  | cons l ls =>
    have hl : l ≠ [] := h l (by simp)
    cases ls with
    | nil => simpa [Join] using hl
    | cons q qs => rw [Join_cons_cons]; simp [hl]

theorem slash_Join_snoc (done : List (List Nat)) (seg : List Nat)
    (hdone : ∀ s ∈ done, isCleanSegment s) :
    (if (true && decide ((47 :: Join done 47).length ≠ 1)) ||
        (!true && decide ((47 :: Join done 47).length ≠ 0))
      then (47 :: Join done 47) ++ [47] else 47 :: Join done 47) ++ seg
      = 47 :: Join (done ++ [seg]) 47 := by
  by_cases hd : done = []
  · subst hd
    simp [Join]
  · have hne := Join_ne_nil done 47 hd (fun s hs => (hdone s hs).1)
    have hlen : (47 :: Join done 47).length ≠ 1 := by
      have := List.length_pos.mpr hne
      simp only [List.length_cons]; omega
    rw [Join_append_singleton done seg 47 hd]
    simp [hne]

theorem cleanLoop_segments :
    ∀ (more done : List (List Nat)) (fuel : Nat), more ≠ [] →
      (∀ s ∈ more, isCleanSegment s) → (∀ s ∈ done, isCleanSegment s) →
      (Join more 47 ++ [47]).length ≤ fuel →
      cleanLoop true fuel (Join more 47 ++ [47]) (47 :: Join done 47) 1 =
        Outcome.ok (47 :: Join (done ++ more) 47) := by
  intro more
  induction more with
  | nil => intro _ _ h; exact absurd rfl h
  | cons seg more ih =>
    intro done fuel _ hmore hdone hf
    have hseg : isCleanSegment seg := hmore seg (by simp)
    have hsegpos : 1 ≤ seg.length := List.length_pos.mpr hseg.1
    cases more with
    | nil =>
      simp only [Join, List.length_append, List.length_singleton] at hf ⊢
      obtain ⟨f, rfl⟩ : ∃ f, fuel = f + 2 := ⟨fuel - 2, by omega⟩
      rw [cleanLoop_segment true (f + 1) seg [47] _ 1 hseg (Or.inr rfl),
        slash_Join_snoc done seg hdone, cleanLoop_succ_cons, if_pos rfl, cleanLoop_nil]
    | cons q qs =>
      rw [Join_cons_cons] at hf ⊢
      simp only [List.append_assoc, List.cons_append, List.length_append, List.length_cons]
        at hf ⊢
      obtain ⟨f, rfl⟩ : ∃ f, fuel = f + 2 := ⟨fuel - 2, by omega⟩
      rw [cleanLoop_segment true (f + 1) seg (47 :: (Join (q :: qs) 47 ++ [47])) _ 1 hseg
          (Or.inr rfl),
        slash_Join_snoc done seg hdone, cleanLoop_succ_cons, if_pos rfl,
        ih (done ++ [seg]) f (by simp) (fun s hs => hmore s (List.mem_cons_of_mem _ hs))
          (fun s hs => by
            rcases List.mem_append.mp hs with h | h
            · exact hdone s h
            · rw [List.mem_singleton.mp h]; exact hseg)
          (by simp only [List.length_append, List.length_singleton]; omega)]
      simp

theorem Dir_clean_path (fuel : Nat) (init : List (List Nat)) (lastSeg : List Nat)
    (hinit : ∀ s ∈ init, isCleanSegment s) (hlast : isCleanSegment lastSeg)
    (hf : (47 :: Join (init ++ [lastSeg]) 47).length ≤ fuel) :
    Dir fuel (47 :: Join (init ++ [lastSeg]) 47) = Outcome.ok (47 :: Join init 47) := by
  unfold Dir
  by_cases hi : init = []
  · subst hi
    have e : 47 :: Join ([] ++ [lastSeg]) 47 = [] ++ 47 :: lastSeg := rfl
    rw [e, dirPart_append_cons [] lastSeg hlast.2.1]
    simp [Clean, cleanLoop_nil, Join]
  · have e : 47 :: Join (init ++ [lastSeg]) 47 = (47 :: Join init 47) ++ 47 :: lastSeg := by
      rw [Join_append_singleton init lastSeg 47 hi]; rfl
    rw [e] at hf ⊢
    rw [dirPart_append_cons _ lastSeg hlast.2.1]
    have hne : (47 :: Join init 47) ++ [47] ≠ [] := by simp
    unfold Clean
    rw [if_neg hne, if_pos (by simp)]
    simp only [List.cons_append, List.drop_succ_cons, List.drop_zero]
    have h1 := cleanLoop_segments init [] fuel hi hinit (by simp) (by
      simp only [List.cons_append, List.length_cons, List.length_append, List.length_nil]
        at hf ⊢
      omega)
    simp only [Join, List.nil_append] at h1
    rw [h1]
    simp

theorem pathLoop_clean_path (fuel : Nat) :
    ∀ (segs : List (List Nat)) (n : Nat) (paths : List (List Nat)),
      (∀ s ∈ segs, isCleanSegment s) → (47 :: Join segs 47).length ≤ fuel →
      segs.length + 1 ≤ n →
      pathLoop fuel n paths (47 :: Join segs 47) =
        Outcome.ok (paths ++ (List.range segs.length).map
          (fun i => 47 :: Join (segs.take (segs.length - i)) 47)) := by
  intro segs
  induction segs using List.reverseRecOn with
  | nil =>
    intro n paths _ _ hn
    obtain ⟨m, rfl⟩ : ∃ m, n = m + 1 := ⟨n - 1, by simp at hn; omega⟩
    simp [pathLoop, Join]
  | append_singleton init lastSeg ih =>
    intro n paths hsegs hf hn
    have hinit : ∀ s ∈ init, isCleanSegment s := fun s hs => hsegs s (List.mem_append_left _ hs)
    have hlast : isCleanSegment lastSeg := hsegs lastSeg (by simp)
    simp only [List.length_append, List.length_singleton] at hn ⊢
    obtain ⟨m, rfl⟩ : ∃ m, n = m + 1 := ⟨n - 1, by omega⟩
    have hjne : Join (init ++ [lastSeg]) 47 ≠ [] :=
      Join_ne_nil _ 47 (by simp) (fun s hs => (hsegs s hs).1)
    have hstop : ¬ (47 :: Join (init ++ [lastSeg]) 47 = [] ∨
        47 :: Join (init ++ [lastSeg]) 47 = [46] ∨ 47 :: Join (init ++ [lastSeg]) 47 = [47]) := by
      simp [hjne]
    have hlen : (47 :: Join init 47).length ≤ (47 :: Join (init ++ [lastSeg]) 47).length := by
      by_cases hi : init = []
      · subst hi; simp [Join]
      · rw [Join_append_singleton init lastSeg 47 hi]
        simp only [List.length_cons, List.length_append]
        omega
    rw [pathLoop, if_neg hstop, Dir_clean_path fuel init lastSeg hinit hlast hf]
    simp only
    rw [ih m _ hinit (by omega) (by omega), List.range_succ_eq_map, List.map_cons, List.map_map]
    simp only [Nat.sub_zero, List.append_assoc, List.singleton_append]
    have e0 : List.take (init.length + 1) (init ++ [lastSeg]) = init ++ [lastSeg] := by
      rw [List.take_of_length_le]; simp
    rw [e0]
    congr 3
    apply List.map_congr_left
    intro i _
    simp only [Function.comp_apply, Nat.succ_eq_add_one]
    have e1 : init.length + 1 - (i + 1) = init.length - i := by omega
    rw [e1, List.take_append_of_le_length (by omega)]

theorem length_le_Join_length (sep : Nat) :
    ∀ (ls : List (List Nat)), (∀ s ∈ ls, s ≠ []) → ls.length ≤ (Join ls sep).length := by
  intro ls
  induction ls with
  | nil => intro _; simp
  | cons l ls ih =>
    intro h
    have hl : 1 ≤ l.length := List.length_pos.mpr (h l (by simp))
    have := ih (fun s hs => h s (List.mem_cons_of_mem _ hs))
    cases ls with
    | nil => simpa [Join] using hl
    | cons q qs =>
      rw [Join_cons_cons]
      simp only [List.length_append, List.length_cons] at this ⊢
      omega

theorem pathVariants_clean_path (fuel : Nat) (segs : List (List Nat))
    (hsegs : ∀ s ∈ segs, isCleanSegment s) (hf : (47 :: Join segs 47).length + 1 ≤ fuel) :
    pathVariants fuel (47 :: Join segs 47) =
      Outcome.ok ([[], [47]] ++ (List.range segs.length).map
        (fun i => 47 :: Join (segs.take (segs.length - i)) 47)) := by
  unfold pathVariants
  simp only [List.length_cons] at hf
  have hlen : segs.length ≤ (Join segs 47).length :=
    length_le_Join_length 47 segs (fun s hs => (hsegs s hs).1)
  exact pathLoop_clean_path fuel segs fuel _ hsegs
    (by simp only [List.length_cons]; omega) (by omega)

theorem segments_clean_path (segs : List (List Nat)) (hsegs : ∀ s ∈ segs, isCleanSegment s) :
    segments (47 :: Join segs 47) = segs := by
  unfold segments
  rw [Split_cons_sep]
  by_cases hs : segs = []
  · subst hs; simp [Join, Split]
  · rw [Split_Join segs 47 hs (fun p hp => (hsegs p hp).2.1)]
    rw [List.filter_cons_of_neg (by simp)]
    apply List.filter_eq_self.mpr
    intro s hs'
    simpa using (hsegs s hs').1

/-- C8 fails as stated: the request path `/a/` has one slash-separated segment
(and three parts when split on `'/'`), yet its path-variant list has the four
entries `""`, `"/"`, `"/a/"` and `"/a"`, neither `1 + 2` nor `3 + 2`. -/
theorem pathVariants_length_counterexample :
    ¬ (∀ (fuel : Nat) (p : List Nat) (P : List (List Nat)),
        pathVariants fuel p = Outcome.ok P → P.length = (segments p).length + 2) ∧
    ¬ (∀ (fuel : Nat) (p : List Nat) (P : List (List Nat)),
        pathVariants fuel p = Outcome.ok P → P.length = (Split p 47).length + 2) := by
  have h1 : pathVariants 10 (bytes "/a/") =
      Outcome.ok [[], bytes "/", bytes "/a/", bytes "/a"] := by decide
  constructor
  · intro h
    have h2 := h 10 (bytes "/a/") _ h1
    revert h2
    decide
  · intro h
    have h2 := h 10 (bytes "/a/") _ h1
    revert h2
    decide

/-- C9. For request host `www.example.com`, request path `/account/settings`
and cookie name `sid`, `DeepDelete` emits exactly 12 directives: the domain
variants `""`, `".www.example.com"`, `".example.com"` (`".com"` is not among
them) crossed with the path variants `""`, `"/"`, `"/account/settings"`,
`"/account"`, domain-outer and path-inner, each with `Name` `sid`,
`MaxAge` `-1`, `Secure = true` and `HttpOnly = true`. -/
theorem DeepDelete_example (fuel : Nat) (hf : 18 ≤ fuel) :
    domainVariants fuel (bytes "www.example.com") =
      Outcome.ok [bytes "", bytes ".www.example.com", bytes ".example.com"] ∧
    bytes ".com" ∉ [bytes "", bytes ".www.example.com", bytes ".example.com"] ∧
    pathVariants fuel (bytes "/account/settings") =
      Outcome.ok [bytes "", bytes "/", bytes "/account/settings", bytes "/account"] ∧
    DeepDelete fuel (bytes "sid") (bytes "www.example.com") (bytes "/account/settings") =
      Outcome.ok
        [ deleteCookie (bytes "sid") (bytes "") (bytes ""),
          deleteCookie (bytes "sid") (bytes "") (bytes "/"),
          deleteCookie (bytes "sid") (bytes "") (bytes "/account/settings"),
          deleteCookie (bytes "sid") (bytes "") (bytes "/account"),
          deleteCookie (bytes "sid") (bytes ".www.example.com") (bytes ""),
          deleteCookie (bytes "sid") (bytes ".www.example.com") (bytes "/"),
          deleteCookie (bytes "sid") (bytes ".www.example.com") (bytes "/account/settings"),
          deleteCookie (bytes "sid") (bytes ".www.example.com") (bytes "/account"),
          deleteCookie (bytes "sid") (bytes ".example.com") (bytes ""),
          deleteCookie (bytes "sid") (bytes ".example.com") (bytes "/"),
          deleteCookie (bytes "sid") (bytes ".example.com") (bytes "/account/settings"),
          deleteCookie (bytes "sid") (bytes ".example.com") (bytes "/account") ] ∧
    ∀ d p, (deleteCookie (bytes "sid") d p).Name = bytes "sid" ∧
      (deleteCookie (bytes "sid") d p).MaxAge = -1 ∧
      (deleteCookie (bytes "sid") d p).Secure = true ∧
      (deleteCookie (bytes "sid") d p).HttpOnly = true ∧
      (deleteCookie (bytes "sid") d p).Domain = d ∧
      (deleteCookie (bytes "sid") d p).Path = p := by
  have hhl : (bytes "www.example.com").length = 15 := by decide
  have hpl : (47 :: Join [bytes "account", bytes "settings"] 47).length = 17 := by decide
  have hpe : bytes "/account/settings" = 47 :: Join [bytes "account", bytes "settings"] 47 := by
    decide
  have hD := domainVariants_ok fuel (bytes "www.example.com") (by omega)
  have hDe : ([] :: (List.range (max ((Split (bytes "www.example.com") 46).length - 1) 1)).map
      (fun i => 46 :: Join ((Split (bytes "www.example.com") 46).drop i) 46))
      = [bytes "", bytes ".www.example.com", bytes ".example.com"] := by decide
  rw [hDe] at hD
  have hP := pathVariants_clean_path fuel [bytes "account", bytes "settings"] (by decide)
    (by omega)
  have hPe : ([[], [47]] ++ (List.range [bytes "account", bytes "settings"].length).map
      (fun i => 47 :: Join ([bytes "account", bytes "settings"].take
        ([bytes "account", bytes "settings"].length - i)) 47))
      = [bytes "", bytes "/", bytes "/account/settings", bytes "/account"] := by decide
  rw [hPe, ← hpe] at hP
  refine ⟨hD, by decide, hP, ?_, fun d p => ⟨rfl, rfl, rfl, rfl, rfl, rfl⟩⟩
  unfold DeepDelete
  rw [hD, hP]
  rfl

theorem DeepDelete_example_witness :
    (DeepDelete 18 (bytes "sid") (bytes "www.example.com") (bytes "/account/settings") =
      Outcome.ok (emitCookies (bytes "sid")
        [bytes "", bytes ".www.example.com", bytes ".example.com"]
        [bytes "", bytes "/", bytes "/account/settings", bytes "/account"])) ∧
    (emitCookies (bytes "sid")
        [bytes "", bytes ".www.example.com", bytes ".example.com"]
        [bytes "", bytes "/", bytes "/account/settings", bytes "/account"]).length = 12 :=
  ⟨(DeepDelete_example 18 (by decide)).2.2.2.1, by decide⟩

/-! ## Rejections of `ValidDomain` -/

theorem isCookieDomainNameLoop_colon :
    ∀ (rest : List Nat) (last : Nat) (ok : Bool) (partlen : Nat), 58 ∈ rest →
      isCookieDomainNameLoop rest last ok partlen = none := by
  intro rest
  induction rest with
  | nil => intro _ _ _ h; simp at h
  | cons c rest ih =>
    intro last ok partlen h
    rw [isCookieDomainNameLoop]
    by_cases hc : c = 58
    · subst hc; simp
    · have hr : 58 ∈ rest := by
        rcases List.mem_cons.mp h with e | e
        · exact absurd e.symm hc
        · exact e
      split_ifs <;> first | rfl | exact ih _ _ _ hr

theorem isCookieDomainName_colon (s : List Nat) (h : 58 ∈ s) : isCookieDomainName s = false := by
  cases s with
  | nil => rfl
  | cons s0 t =>
    rw [isCookieDomainName_cons]
    by_cases h1 : (s0 :: t).length > 255
    · rw [if_pos h1]
    · rw [if_neg h1]
      by_cases h2 : s0 ≠ 46
      · rw [if_pos h2]
      · rw [if_neg h2]
        have h3 : s0 = 46 := not_not.mp h2
        have ht : 58 ∈ t := by
          rcases List.mem_cons.mp h with e | e
          · omega
          · exact e
        rw [isCookieDomainNameLoop_colon t s0 false 0 ht]

/-- C12. For every candidate string `s` that contains the character `':'`,
`ValidDomain(s)` is false, whatever the rest of `s` is and whatever the IPv6
parser makes of it: every IPv6 textual address (raw, bracketed or
IPv4-mapped) and every `host:port` string is rejected. -/
theorem ValidDomain_colon (parseIPv6 : List Nat → Option (List Nat)) (s : List Nat)
    (h : 58 ∈ s) : ValidDomain parseIPv6 s = false := by
  unfold ValidDomain
  rw [isCookieDomainName_colon s h]
  simp [Contains, h]

theorem ValidDomain_colon_witness :
    ValidDomain (fun s => some s) (bytes "::1") = false ∧
    ValidDomain (fun s => some s) (bytes "[2001:db8::1]") = false ∧
    ValidDomain (fun s => some s) (bytes "::ffff:192.168.1.1") = false ∧
    ValidDomain (fun s => some s) (bytes "example.com:8080") = false :=
  ⟨ValidDomain_colon _ _ (by decide), ValidDomain_colon _ _ (by decide),
    ValidDomain_colon _ _ (by decide), ValidDomain_colon _ _ (by decide)⟩

/-- C13. `ValidDomain(".")` is false, and for every string `L` that contains
no `'.'`, `ValidDomain("." + L)` is false: a candidate whose only dot is the
leading one, such as `".com"`, is never accepted. -/
theorem ValidDomain_single_label (parseIPv6 : List Nat → Option (List Nat)) (L : List Nat)
    (h : 46 ∉ L) :
    ValidDomain parseIPv6 [46] = false ∧ ValidDomain parseIPv6 (46 :: L) = false := by
  have key : ∀ M : List Nat, 46 ∉ M → ValidDomain parseIPv6 (46 :: M) = false := by
    intro M hM
    rw [ValidDomain_of_ParseIP_none parseIPv6 _ (ParseIP_dot_cons parseIPv6 M)]
    cases hv : isCookieDomainName (46 :: M) with
    | false => rfl
    | true =>
      obtain ⟨t, init, lastl, hs, _, hsplit, _, _, hn, _⟩ := (isCookieDomainName_iff _).mp hv
      obtain rfl : M = t := (List.cons.inj hs).2
      rw [Split_of_not_mem M 46 hM] at hsplit
      have := congrArg List.length hsplit
      simp only [List.length_singleton, List.length_append] at this
      omega
  exact ⟨key [] (by simp), key L h⟩

theorem ValidDomain_single_label_witness :
    46 ∉ bytes "com" ∧
    ValidDomain (fun _ => none) [46] = false ∧
    ValidDomain (fun _ => none) (46 :: bytes "com") = false :=
  ⟨by decide, ValidDomain_single_label (fun _ => none) (bytes "com") (by decide)⟩

/-- C17. For every single label `L` of 1 to 63 characters drawn from
`[A-Za-z0-9-]` that contains at least one letter and neither starts nor ends
with `'-'`, `ValidDomain("." + L + ".")` is true: the trailing dot counts
towards the two dots required, so a single label followed by a trailing dot,
such as `".com."`, is accepted. -/
theorem ValidDomain_single_label_trailing_dot (parseIPv6 : List Nat → Option (List Nat))
    (L : List Nat) (hL : isLabel L) (hletter : ∃ c ∈ L, isLetter c) :
    ValidDomain parseIPv6 (46 :: (L ++ [46])) = true ∧ Count (46 :: (L ++ [46])) 46 = 2 := by
  have hdot : 46 ∉ L := by
    intro h
    have := hL.2.2.1 46 h
    unfold isLabelChar isLetter at this
    omega
  constructor
  · rw [ValidDomain_of_ParseIP_none parseIPv6 _ (ParseIP_dot_cons parseIPv6 _),
      isCookieDomainName_iff]
    obtain ⟨c, hc, hcl⟩ := hletter
    refine ⟨L ++ [46], [L], [], rfl, ?_, ?_, ?_, Or.inl rfl, by simp, c, by simp [hc], hcl⟩
    · have := hL.2.1
      simp only [List.length_cons, List.length_append, List.length_nil]
      omega
    · rw [Split_append_singleton_sep, Split_of_not_mem L 46 hdot]
    · intro l hl
      rw [List.mem_singleton.mp hl]; exact hL
  · unfold Count
    simp [List.count_cons, List.count_append, List.count_eq_zero_of_not_mem hdot]

theorem ValidDomain_single_label_trailing_dot_witness :
    isLabel (bytes "com") ∧
    ValidDomain (fun _ => none) (46 :: (bytes "com" ++ [46])) = true ∧
      Count (46 :: (bytes "com" ++ [46])) 46 = 2 :=
  ⟨by decide,
    ValidDomain_single_label_trailing_dot (fun _ => none) (bytes "com") (by decide)
      ⟨99, by decide, by decide⟩⟩

/-! ## Ancestors, panics and termination -/

/-- C14. For every absolute, clean request path
`p = "/" + s_1 + "/" + ... + "/" + s_k` with `k ≥ 1`, where every segment is
non-empty, holds no `'/'` and is neither `"."` nor `".."`, the path-variant
list built by `DeepDelete` is `""`, `"/"`, then `p` and each of its proper
ancestors from deepest to shallowest, `"/s_1"` last: the entry after the two
fixed ones at position `i` is `"/" + s_1 + ... + s_(k-i)`.  The root is listed
once, at index 1: no later entry is `"/"` or `""`. -/
theorem pathVariants_ancestors (fuel : Nat) (segs : List (List Nat)) (hk : segs ≠ [])
    (hsegs : ∀ s ∈ segs, isCleanSegment s) (hf : (47 :: Join segs 47).length + 1 ≤ fuel) :
    pathVariants fuel (47 :: Join segs 47) =
      Outcome.ok ([[], [47]] ++ (List.range segs.length).map
        (fun i => 47 :: Join (segs.take (segs.length - i)) 47)) ∧
    ((List.range segs.length).map
        (fun i => 47 :: Join (segs.take (segs.length - i)) 47))[0]? = some (47 :: Join segs 47) ∧
    ((List.range segs.length).map
        (fun i => 47 :: Join (segs.take (segs.length - i)) 47))[segs.length - 1]?
      = some (47 :: Join (segs.take 1) 47) ∧
    ∀ e ∈ (List.range segs.length).map
        (fun i => 47 :: Join (segs.take (segs.length - i)) 47), e ≠ [47] ∧ e ≠ [] := by
  have hpos : 0 < segs.length := List.length_pos.mpr hk
  refine ⟨pathVariants_clean_path fuel segs hsegs hf, ?_, ?_, ?_⟩
  · rw [List.getElem?_map, List.getElem?_range hpos]
    simp
  · rw [List.getElem?_map, List.getElem?_range (by omega)]
    have e : segs.length - (segs.length - 1) = 1 := by omega
    simp only [Option.map_some', e]
  · intro e he
    obtain ⟨i, hi, rfl⟩ := List.mem_map.mp he
    have hi' : i < segs.length := List.mem_range.mp hi
    have hne : segs.take (segs.length - i) ≠ [] := by
      intro h0
      have := congrArg List.length h0
      rw [List.length_take] at this
      simp only [List.length_nil] at this
      omega
    have hj := Join_ne_nil _ 47 hne (fun s hs => (hsegs s (List.mem_of_mem_take hs)).1)
    simp [hj]

theorem pathVariants_ancestors_witness :
    pathVariants 18 (47 :: Join [bytes "account", bytes "settings"] 47) =
      Outcome.ok [bytes "", bytes "/", bytes "/account/settings", bytes "/account"] :=
  (pathVariants_ancestors 18 [bytes "account", bytes "settings"] (by decide) (by decide)
    (by decide)).1

theorem cleanLoop_ne_panicked (rooted : Bool) :
    ∀ (fuel : Nat) (rest out : List Nat) (dotdot : Nat),
      cleanLoop rooted fuel rest out dotdot ≠ Outcome.panicked := by
  intro fuel
  induction fuel with
  | zero =>
    intro rest out dotdot
    cases rest with
    | nil => rw [cleanLoop_nil]; simp
    | cons c t => simp [cleanLoop]
  | succ fuel ih =>
    intro rest out dotdot
    cases rest with
    | nil => rw [cleanLoop_nil]; simp
    | cons c t =>
      rw [cleanLoop_succ_cons]
      split_ifs <;> exact ih _ _ _

theorem Clean_ne_panicked (fuel : Nat) (path : List Nat) : Clean fuel path ≠ Outcome.panicked := by
  unfold Clean
  split_ifs with h1 h2
  · simp
  · cases h : cleanLoop true fuel (List.drop 1 path) [47] 1 with
    | ok out => simp only; split_ifs <;> simp
    | panicked => exact absurd h (cleanLoop_ne_panicked _ _ _ _ _)
    | outOfFuel => simp
  · cases h : cleanLoop false fuel path [] 0 with
    | ok out => simp only; split_ifs <;> simp
    | panicked => exact absurd h (cleanLoop_ne_panicked _ _ _ _ _)
    | outOfFuel => simp

theorem pathLoop_ne_panicked (fuel : Nat) :
    ∀ (n : Nat) (paths : List (List Nat)) (tempPath : List Nat),
      pathLoop fuel n paths tempPath ≠ Outcome.panicked := by
  intro n
  induction n with
  | zero => intro paths tempPath; simp [pathLoop]
  | succ n ih =>
    intro paths tempPath
    rw [pathLoop]
    split_ifs
    · simp
    · cases h : Dir fuel tempPath with
      | ok d => exact ih _ _
      | panicked => exact absurd h (Clean_ne_panicked _ _)
      | outOfFuel => simp

theorem Split_dot_cons_length (t : List Nat) : 2 ≤ (Split (46 :: t) 46).length := by
  rw [Split_cons_sep, List.length_cons]
  have := List.length_pos.mpr (Split_ne_nil t 46)
  omega

theorem domainLoop_ne_panicked :
    ∀ (fuel : Nat) (domains : List (List Nat)) (t : List Nat),
      domainLoop fuel domains (46 :: t) ≠ Outcome.panicked := by
  intro fuel
  induction fuel with
  | zero => intro domains t; simp [domainLoop]
  | succ fuel ih =>
    intro domains t
    rw [domainLoop, if_neg (by have := Split_dot_cons_length t; omega)]
    split_ifs
    · simp
    · exact ih _ _

/-- C15. `DeepDelete` never panics, on any request host (the empty host, a
single-label host and a host made only of dots included) and with any
iteration budget: in every pass of the domain loop `tempDomain` begins with
`'.'`, so `strings.Split(tempDomain, ".")` has at least two elements and the
slice expression `[2:]` stays within bounds. -/
theorem DeepDelete_never_panics (fuel : Nat) (cookieName host urlPath : List Nat) :
    DeepDelete fuel cookieName host urlPath ≠ Outcome.panicked ∧
    (∀ (domains : List (List Nat)) (t : List Nat),
      2 ≤ (Split (46 :: t) 46).length ∧
      domainLoop fuel domains (46 :: t) ≠ Outcome.panicked) ∧
    DeepDelete fuel cookieName [] urlPath ≠ Outcome.panicked ∧
    DeepDelete fuel cookieName (bytes "localhost") urlPath ≠ Outcome.panicked ∧
    DeepDelete fuel cookieName (bytes "...") urlPath ≠ Outcome.panicked := by
  have key : ∀ h : List Nat, DeepDelete fuel cookieName h urlPath ≠ Outcome.panicked := by
    intro h
    unfold DeepDelete
    cases hd : domainVariants fuel h with
    | ok D =>
      simp only
      cases hp : pathVariants fuel urlPath with
      | ok P => simp
      | panicked => exact absurd hp (pathLoop_ne_panicked _ _ _ _)
      | outOfFuel => simp
    | panicked => exact absurd hd (domainLoop_ne_panicked _ _ _)
    | outOfFuel => simp
  exact ⟨key host, fun domains t => ⟨Split_dot_cons_length t, domainLoop_ne_panicked _ _ _⟩,
    key _, key _, key _⟩

theorem Split_next_tempDomain_length (td : List Nat)
    (h : 2 ≤ ((Split td 46).drop 2).length) :
    (Split (46 :: Join ((Split td 46).drop 2) 46) 46).length + 1 = (Split td 46).length := by
  have hne : (Split td 46).drop 2 ≠ [] := by
    intro e; rw [e] at h; simp at h
  rw [Split_dot_Join _ hne
    (fun p hp => not_mem_of_mem_Split td 46 p (List.mem_of_mem_drop hp))]
  rw [List.length_drop] at h
  rw [List.length_cons, List.length_drop]
  omega

/-- C16. `DeepDelete` terminates for every request host and request path: with
an iteration budget above their lengths it returns its directives.  Each pass
of the domain loop that goes on reduces the number of dot-separated labels of
`tempDomain` (by one), and for every string `t` other than `""`, `"."` and
`"/"`, `path.Dir(t)` is one of those three stop values or strictly shorter than
`t`. -/
theorem DeepDelete_terminates (fuel : Nat) (cookieName host urlPath : List Nat)
    (hh : host.length + 1 ≤ fuel) (hp : urlPath.length + 1 ≤ fuel) :
    (∃ L, DeepDelete fuel cookieName host urlPath = Outcome.ok L) ∧
    (∀ td : List Nat, 2 ≤ ((Split td 46).drop 2).length →
      (Split (46 :: Join ((Split td 46).drop 2) 46) 46).length < (Split td 46).length) ∧
    (∀ t : List Nat, t.length ≤ fuel → ¬ (t = [] ∨ t = [46] ∨ t = [47]) →
      ∃ d, Dir fuel t = Outcome.ok d ∧
        ((d = [] ∨ d = [46] ∨ d = [47]) ∨ d.length < t.length)) := by
  refine ⟨?_, ?_, ?_⟩
  · obtain ⟨D, P, _, _, hL⟩ := DeepDelete_ok fuel cookieName host urlPath hh hp
    exact ⟨_, hL⟩
  · intro td h
    have := Split_next_tempDomain_length td h
    omega
  · intro t ht hstop
    obtain ⟨d, hd, hcase⟩ := Dir_bound fuel t ht hstop
    refine ⟨d, hd, ?_⟩
    rcases hcase with h | h
    · exact Or.inl (Or.inr (Or.inl h))
    · exact Or.inr h

theorem DeepDelete_terminates_witness :
    ∃ L, DeepDelete 18 (bytes "sid") (bytes "www.example.com") (bytes "/account/settings")
      = Outcome.ok L :=
  (DeepDelete_terminates 18 (bytes "sid") (bytes "www.example.com")
    (bytes "/account/settings") (by decide) (by decide)).1

/-! ## No directive twice -/

theorem Join_drop_succ_length_lt (sep : Nat) :
    ∀ (ls : List (List Nat)) (i : Nat), i + 1 < ls.length →
      (Join (ls.drop (i + 1)) sep).length < (Join (ls.drop i) sep).length := by
  intro ls
  induction ls with
  | nil => intro i h; simp at h
  | cons l ls ih =>
    intro i h
    cases i with
    | zero =>
      simp only [List.drop_succ_cons, List.drop_zero]
      have hne : ls ≠ [] := by
        intro e; rw [e] at h; simp at h
      rw [Join_cons_of_ne_nil l sep hne]
      simp only [List.length_append, List.length_cons]
      omega
    | succ i =>
      simp only [List.drop_succ_cons]
      exact ih i (by simpa using h)

theorem Join_drop_length_lt (sep : Nat) (ls : List (List Nat)) :
    ∀ (j i : Nat), i < j → j < ls.length →
      (Join (ls.drop j) sep).length < (Join (ls.drop i) sep).length := by
  intro j
  induction j with
  | zero => intro i h; omega
  | succ j ih =>
    intro i hij hj
    have h1 := Join_drop_succ_length_lt sep ls j hj
    by_cases e : i = j
    · subst e; exact h1
    · exact lt_trans h1 (ih i (by omega) (by omega))

theorem domainVariants_nodup (ls : List (List Nat)) :
    ([] :: (List.range (max (ls.length - 1) 1)).map
      (fun i => 46 :: Join (ls.drop i) 46)).Nodup := by
  rw [List.nodup_cons]
  constructor
  · intro h
    obtain ⟨i, _, hi⟩ := List.mem_map.mp h
    simp at hi
  · apply List.Nodup.map_on _ (List.nodup_range _)
    intro x hx y hy hxy
    have hx' : x < max (ls.length - 1) 1 := List.mem_range.mp hx
    have hy' : y < max (ls.length - 1) 1 := List.mem_range.mp hy
    have hlen : (Join (ls.drop x) 46).length = (Join (ls.drop y) 46).length := by
      have := congrArg List.length hxy
      simpa using this
    by_contra hne
    rcases Nat.lt_or_gt_of_ne hne with h | h
    · have := Join_drop_length_lt 46 ls y x h (by omega)
      omega
    · have := Join_drop_length_lt 46 ls x y h (by omega)
      omega

theorem pathLoop_nodup (fuel : Nat) :
    ∀ (n : Nat) (paths : List (List Nat)) (tempPath : List Nat) (P : List (List Nat)),
      tempPath.length ≤ fuel → paths.Nodup →
      ((tempPath = [] ∨ tempPath = [46] ∨ tempPath = [47]) ∨
        ∀ e ∈ paths, e = [] ∨ e = [47] ∨ tempPath.length < e.length) →
      pathLoop fuel n paths tempPath = Outcome.ok P → P.Nodup := by
  intro n
  induction n with
  | zero => intro paths tempPath P _ _ _ h; simp [pathLoop] at h
  | succ n ih =>
    intro paths tempPath P hf hnd hinv h
    rw [pathLoop] at h
    by_cases hstop : tempPath = [] ∨ tempPath = [46] ∨ tempPath = [47]
    · rw [if_pos hstop] at h
      cases h
      exact hnd
    · rw [if_neg hstop] at h
      have hinv' : ∀ e ∈ paths, e = [] ∨ e = [47] ∨ tempPath.length < e.length := by
        rcases hinv with h0 | h0
        · exact absurd h0 hstop
        · exact h0
      obtain ⟨d, hd, hcase⟩ := Dir_bound fuel tempPath hf hstop
      rw [hd] at h
      simp only at h
      have hpos : 0 < tempPath.length :=
        List.length_pos.mpr (fun e : tempPath = [] => hstop (Or.inl e))
      have hnot : tempPath ∉ paths := by
        intro hm
        rcases hinv' tempPath hm with e | e | e
        · exact hstop (Or.inl e)
        · exact hstop (Or.inr (Or.inr e))
        · omega
      have hnd' : (paths ++ [tempPath]).Nodup := by
        rw [List.nodup_append]
        refine ⟨hnd, List.nodup_singleton _, ?_⟩
        intro a ha hb
        rw [List.mem_singleton.mp hb] at ha
        exact hnot ha
      rcases hcase with rfl | hlt
      · exact ih _ _ P (by simp only [List.length_singleton]; omega) hnd'
          (Or.inl (Or.inr (Or.inl rfl))) h
      · refine ih _ _ P (by omega) hnd' (Or.inr ?_) h
        intro e he
        rcases List.mem_append.mp he with h1 | h1
        · rcases hinv' e h1 with h2 | h2 | h2
          · exact Or.inl h2
          · exact Or.inr (Or.inl h2)
          · exact Or.inr (Or.inr (by omega))
        · rw [List.mem_singleton.mp h1]
          exact Or.inr (Or.inr hlt)

theorem emitCookies_map_pair (cookieName : List Nat) (D P : List (List Nat)) :
    (emitCookies cookieName D P).map (fun c => (c.Domain, c.Path)) = D ×ˢ P := by
  unfold emitCookies
  induction D with
  | nil => rfl
  | cons d D ih =>
    rw [List.flatMap_cons, List.map_append, ih, List.product_cons, List.map_map]
    rfl

/-- C18. For every request host and request path, the `(Domain, Path)` pairs of
the directives `DeepDelete` emits are pairwise distinct: the domain-variant
list has no repeated entry, the path-variant list has no repeated entry, and
so no deletion directive is emitted twice. -/
theorem DeepDelete_no_duplicates (fuel : Nat) (cookieName host urlPath : List Nat)
    (hh : host.length + 1 ≤ fuel) (hp : urlPath.length + 1 ≤ fuel) :
    ∃ D P L, domainVariants fuel host = Outcome.ok D ∧
      pathVariants fuel urlPath = Outcome.ok P ∧
      DeepDelete fuel cookieName host urlPath = Outcome.ok L ∧
      D.Nodup ∧ P.Nodup ∧ (L.map (fun c => (c.Domain, c.Path))).Nodup ∧ L.Nodup := by
  obtain ⟨D, P, hD, hP, hL⟩ := DeepDelete_ok fuel cookieName host urlPath hh hp
  have hDn : D.Nodup := by
    have h1 := domainVariants_ok fuel host hh
    rw [hD] at h1
    rw [Outcome.ok.inj h1]
    exact domainVariants_nodup _
  have hPn : P.Nodup := by
    unfold pathVariants at hP
    refine pathLoop_nodup fuel fuel _ urlPath P (by omega) (by decide) (Or.inr ?_) hP
    intro e he
    simp only [List.mem_cons, List.mem_singleton, List.not_mem_nil, or_false] at he
    rcases he with h | h
    · exact Or.inl h
    · exact Or.inr (Or.inl h)
  have hpairs : ((emitCookies cookieName D P).map (fun c => (c.Domain, c.Path))).Nodup := by
    rw [emitCookies_map_pair]
    exact List.Nodup.product hDn hPn
  exact ⟨D, P, _, hD, hP, hL, hDn, hPn, hpairs, List.Nodup.of_map _ hpairs⟩

theorem DeepDelete_no_duplicates_witness :
    ∃ D P L, domainVariants 18 (bytes "www.example.com") = Outcome.ok D ∧
      pathVariants 18 (bytes "/account/settings") = Outcome.ok P ∧
      DeepDelete 18 (bytes "sid") (bytes "www.example.com") (bytes "/account/settings")
        = Outcome.ok L ∧
      D.Nodup ∧ P.Nodup ∧ (L.map (fun c => (c.Domain, c.Path))).Nodup ∧ L.Nodup :=
  DeepDelete_no_duplicates 18 (bytes "sid") (bytes "www.example.com")
    (bytes "/account/settings") (by decide) (by decide)

/-! ## `net.ParseIP` on dotted-decimal literals -/

theorem decimalValue_append_singleton (g : List Nat) (c : Nat) :
    decimalValue (g ++ [c]) = decimalValue g * 10 + (c - 48) := by
  simp [decimalValue, List.foldl_append]

theorem foldl_decimal_le (f : List Nat) :
    ∀ v : Nat, v ≤ f.foldl (fun v c => v * 10 + (c - 48)) v := by
  induction f with
  | nil => intro v; exact le_refl _
  | cons c f ih =>
    intro v
    simp only [List.foldl_cons]
    exact le_trans (by omega) (ih _)

theorem decimalValue_le_append (g f : List Nat) :
    decimalValue g ≤ decimalValue (g ++ f) := by
  simp only [decimalValue, List.foldl_append]
  exact foldl_decimal_le f _

theorem parseIPv4Loop_cons (s : List Nat) (c : Nat) (rest : List Nat)
    (i val pos digLen : Nat) (fields : List Nat) :
    parseIPv4Loop s (c :: rest) i val pos digLen fields =
      if 48 ≤ c ∧ c ≤ 57 then
        if digLen = 1 ∧ val = 0 then none
        else if val * 10 + c - 48 > 255 then none
        else parseIPv4Loop s rest (i + 1) (val * 10 + c - 48) pos (digLen + 1) fields
      else if c = 46 then
        if i = 0 ∨ i = s.length - 1 ∨ s.getD (i - 1) 0 = 46 then none
        else if pos = 3 then none
        else parseIPv4Loop s rest (i + 1) 0 (pos + 1) 0 (fields ++ [val])
      else none := rfl

theorem parseIPv4Loop_field (s rest : List Nat) (pos : Nat) (fields : List Nat) :
    ∀ (f g : List Nat) (i : Nat), 46 ∉ f → (∀ c ∈ g, 48 ≤ c ∧ c ≤ 57) →
      (1 < g.length → g.head? ≠ some 48) → decimalValue g ≤ 255 →
      parseIPv4Loop s (f ++ rest) i (decimalValue g) pos g.length fields =
        if (∀ c ∈ f, 48 ≤ c ∧ c ≤ 57) ∧ (1 < (g ++ f).length → (g ++ f).head? ≠ some 48) ∧
            decimalValue (g ++ f) ≤ 255
        then parseIPv4Loop s rest (i + f.length) (decimalValue (g ++ f)) pos (g ++ f).length fields
        else none := by
  intro f
  induction f with
  | nil =>
    intro g i _ _ hz hv
    simp only [List.append_nil, List.nil_append, List.length_nil, Nat.add_zero]
    rw [if_pos ⟨by simp, hz, hv⟩]
  | cons c f ih =>
    intro g i hdot hg hz hv
    have hc46 : c ≠ 46 := fun e => hdot (by simp [e])
    have hf46 : 46 ∉ f := fun e => hdot (List.mem_cons_of_mem _ e)
    have happ : g ++ c :: f = (g ++ [c]) ++ f := by simp
    rw [List.cons_append, parseIPv4Loop_cons]
    by_cases hd : 48 ≤ c ∧ c ≤ 57
    · rw [if_pos hd]
      by_cases h1 : g.length = 1 ∧ decimalValue g = 0
      · -- an octet with a leading zero
        rw [if_pos h1, if_neg]
        rintro ⟨_, hz', _⟩
        obtain ⟨d, rfl⟩ := List.length_eq_one.mp h1.1
        have hd' := hg d (by simp)
        have hv0 : decimalValue [d] = d - 48 := by simp [decimalValue]
        have : d = 48 := by have := h1.2; rw [hv0] at this; omega
        subst this
        exact hz' (by simp) (by simp)
      · rw [if_neg h1]
        have hval : decimalValue (g ++ [c]) = decimalValue g * 10 + c - 48 := by
          rw [decimalValue_append_singleton]; omega
        by_cases h2 : decimalValue g * 10 + c - 48 > 255
        · rw [if_pos h2, if_neg]
          rintro ⟨_, _, hv'⟩
          have := decimalValue_le_append (g ++ [c]) f
          rw [← happ] at this
          omega
        · rw [if_neg h2, ← hval]
          have hlen : g.length + 1 = (g ++ [c]).length := by simp
          rw [hlen, ih (g ++ [c]) (i + 1) hf46
            (fun x hx => by
              rcases List.mem_append.mp hx with h | h
              · exact hg x h
              · rw [List.mem_singleton.mp h]; exact hd)
            (fun hl => by
              cases g with
              | nil => simp at hl
              | cons d g' =>
                simp only [List.cons_append, List.head?_cons, ne_eq, Option.some.injEq]
                by_cases hg1 : 1 < (d :: g').length
                · have := hz hg1; simpa using this
                · have hg' : g' = [] := by
                    simp only [List.length_cons] at hg1
                    exact List.length_eq_zero.mp (by omega)
                  subst hg'
                  intro e
                  apply h1
                  subst e
                  exact ⟨rfl, by simp [decimalValue]⟩)
            (by omega)]
          rw [← happ]
          have e1 : i + 1 + f.length = i + (c :: f).length := by
            simp only [List.length_cons]; omega
          rw [e1]
          by_cases hcond : (∀ c ∈ f, 48 ≤ c ∧ c ≤ 57) ∧
              (1 < (g ++ c :: f).length → (g ++ c :: f).head? ≠ some 48) ∧
              decimalValue (g ++ c :: f) ≤ 255
          · rw [if_pos hcond, if_pos ⟨fun x hx => by
              rcases List.mem_cons.mp hx with h | h
              · rw [h]; exact hd
              · exact hcond.1 x h, hcond.2⟩]
          · rw [if_neg hcond, if_neg]
            rintro ⟨h1', h2'⟩
            exact hcond ⟨fun x hx => h1' x (List.mem_cons_of_mem _ hx), h2'⟩
    · rw [if_neg hd, if_neg hc46, if_neg]
      rintro ⟨h1', _⟩
      exact hd (h1' c (by simp))

theorem parseIPv4Loop_field_start (s rest : List Nat) (pos : Nat) (fields : List Nat)
    (f : List Nat) (i : Nat) (hdot : 46 ∉ f) :
    parseIPv4Loop s (f ++ rest) i 0 pos 0 fields =
      if (∀ c ∈ f, 48 ≤ c ∧ c ≤ 57) ∧ (1 < f.length → f.head? ≠ some 48) ∧
          decimalValue f ≤ 255
      then parseIPv4Loop s rest (i + f.length) (decimalValue f) pos f.length fields
      else none :=
  parseIPv4Loop_field s rest pos fields f [] i hdot (by simp) (by simp) (by simp [decimalValue])

theorem getD_pred_length_append (pre t : List Nat) (hne : pre ≠ []) :
    (pre ++ t).getD (pre.length - 1) 0 = 46 ↔ pre.getLast? = some 46 := by
  have hpos : 0 < pre.length := List.length_pos.mpr hne
  have hlt : pre.length - 1 < pre.length := by omega
  rw [List.getD_append pre t 0 (pre.length - 1) hlt, List.getLast?_eq_getElem?,
    List.getD_eq_getElem?_getD, List.getElem?_eq_getElem hlt]
  simp

theorem parseIPv4Loop_dot (pre t : List Nat) (val pos digLen : Nat) (fields : List Nat) :
    parseIPv4Loop (pre ++ 46 :: t) (46 :: t) pre.length val pos digLen fields =
      if pre = [] ∨ t = [] ∨ pre.getLast? = some 46 then none
      else if pos = 3 then none
      else parseIPv4Loop (pre ++ 46 :: t) t (pre.length + 1) 0 (pos + 1) 0 (fields ++ [val]) := by
  rw [parseIPv4Loop_cons, if_neg (by omega), if_pos rfl]
  have hiff : (pre.length = 0 ∨ pre.length = (pre ++ 46 :: t).length - 1 ∨
      (pre ++ 46 :: t).getD (pre.length - 1) 0 = 46) ↔
      (pre = [] ∨ t = [] ∨ pre.getLast? = some 46) := by
    by_cases hp : pre = []
    · subst hp; simp
    · rw [getD_pred_length_append pre (46 :: t) hp]
      have h1 : pre.length ≠ 0 := fun e => hp (List.length_eq_zero.mp e)
      have h2 : (pre.length = (pre ++ 46 :: t).length - 1) ↔ t = [] := by
        simp only [List.length_append, List.length_cons]
        constructor
        · intro h; exact List.length_eq_zero.mp (by omega)
        · intro h; subst h; simp
      rw [h2]
      simp [h1, hp]
  rw [if_congr hiff rfl rfl]

theorem isDecimalOctet_iff (f : List Nat) :
    isDecimalOctet f ↔ f ≠ [] ∧ ((∀ c ∈ f, 48 ≤ c ∧ c ≤ 57) ∧
      (1 < f.length → f.head? ≠ some 48) ∧ decimalValue f ≤ 255) := Iff.rfl

theorem parseIPv4Loop_fields (s : List Nat) :
    ∀ (fs : List (List Nat)) (pre : List Nat) (pos : Nat) (acc : List Nat),
      fs ≠ [] → (∀ f ∈ fs, 46 ∉ f) → Join fs 46 ≠ [] → s = pre ++ Join fs 46 →
      (pre = [] ∨ pre.getLast? = some 46) → pos ≤ 3 →
      parseIPv4Loop s (Join fs 46) pre.length 0 pos 0 acc =
        if (∀ f ∈ fs, isDecimalOctet f) ∧ pos + fs.length ≤ 4
        then some (decimalValue (fs.getLast?.getD []), pos + fs.length - 1,
          acc ++ fs.dropLast.map decimalValue)
        else none := by
  intro fs
  induction fs with
  | nil => intro _ _ _ h; exact absurd rfl h
  | cons f fs ih =>
    intro pre pos acc _ hdot hjne hs hpre hpos
    have hf46 : 46 ∉ f := hdot f (by simp)
    cases fs with
    | nil =>
      have hfne : f ≠ [] := by simpa [Join] using hjne
      have h0 := parseIPv4Loop_field_start s [] pos acc f pre.length hf46
      rw [List.append_nil] at h0
      simp only [Join]
      rw [h0]
      by_cases hc : (∀ c ∈ f, 48 ≤ c ∧ c ≤ 57) ∧ (1 < f.length → f.head? ≠ some 48) ∧
          decimalValue f ≤ 255
      · rw [if_pos hc, if_pos ⟨fun x hx => by
          rw [List.mem_singleton.mp hx]; exact ⟨hfne, hc⟩, by simp; omega⟩]
        simp [parseIPv4Loop]
      · rw [if_neg hc, if_neg]
        rintro ⟨h1, _⟩
        exact hc (h1 f (by simp)).2
    | cons q qs =>
      have hrest46 : ∀ x ∈ q :: qs, 46 ∉ x := fun x hx => hdot x (List.mem_cons_of_mem _ hx)
      rw [Join_cons_cons] at hs ⊢
      rw [parseIPv4Loop_field_start s _ pos acc f pre.length hf46]
      by_cases hc : (∀ c ∈ f, 48 ≤ c ∧ c ≤ 57) ∧ (1 < f.length → f.head? ≠ some 48) ∧
          decimalValue f ≤ 255
      · rw [if_pos hc]
        have hs' : s = (pre ++ f) ++ 46 :: Join (q :: qs) 46 := by rw [hs]; simp
        have hlen : pre.length + f.length = (pre ++ f).length := by simp
        rw [hlen]
        conv_lhs => rw [hs']
        rw [parseIPv4Loop_dot]
        by_cases hfe : f = []
        · -- an empty field before the dot
          subst hfe
          rw [if_pos (by
            rw [List.append_nil]
            rcases hpre with h | h
            · exact Or.inl h
            · exact Or.inr (Or.inr h)), if_neg]
          rintro ⟨h1, _⟩
          exact (h1 [] (by simp)).1 rfl
        · have hlast : ¬ ((pre ++ f) = [] ∨ (pre ++ f).getLast? = some 46) := by
            rintro (h | h)
            · simp [hfe] at h
            · rw [List.getLast?_append_of_ne_nil _ hfe] at h
              have hm := List.mem_of_getLast?_eq_some h
              exact hf46 hm
          by_cases hte : Join (q :: qs) 46 = []
          · -- the string ends in a dot
            rw [if_pos (Or.inr (Or.inl hte)), if_neg]
            rintro ⟨h1, _⟩
            have hqs : qs = [] := by
              cases qs with
              | nil => rfl
              | cons r rs => rw [Join_cons_cons] at hte; simp at hte
            subst hqs
            have hq : q = [] := by simpa [Join] using hte
            exact (h1 q (by simp)).1 hq
          · rw [if_neg (by
              rintro (h | h | h)
              · exact hlast (Or.inl h)
              · exact hte h
              · exact hlast (Or.inr h))]
            by_cases hp3 : pos = 3
            · rw [if_pos hp3, if_neg]
              rintro ⟨_, h2⟩
              simp only [List.length_cons] at h2
              omega
            · rw [if_neg hp3, ← hs']
              have hlen2 : (pre ++ f).length + 1 = (pre ++ f ++ [46]).length := by
                simp only [List.length_append, List.length_singleton]
              rw [hlen2, ih (pre ++ f ++ [46]) (pos + 1) (acc ++ [decimalValue f]) (by simp)
                hrest46 hte (by rw [hs]; simp) (Or.inr (by simp)) (by omega)]
              by_cases hC : (∀ x ∈ q :: qs, isDecimalOctet x) ∧ pos + 1 + (q :: qs).length ≤ 4
              · rw [if_pos hC, if_pos ⟨fun x hx => by
                  rcases List.mem_cons.mp hx with h | h
                  · rw [h]; exact ⟨hfe, hc⟩
                  · exact hC.1 x h, by
                    have := hC.2
                    simp only [List.length_cons] at this ⊢
                    omega⟩]
                simp only [List.length_cons, List.getLast?_cons_cons, List.dropLast_cons₂,
                  List.map_cons, List.append_assoc, List.singleton_append]
                have e : pos + 1 + (qs.length + 1) - 1 = pos + (qs.length + 1 + 1) - 1 := by omega
                rw [e]
              · rw [if_neg hC, if_neg]
                rintro ⟨h1, h2⟩
                apply hC
                refine ⟨fun x hx => h1 x (List.mem_cons_of_mem _ hx), ?_⟩
                simp only [List.length_cons] at h2 ⊢
                omega
      · rw [if_neg hc, if_neg]
        rintro ⟨h1, _⟩
        exact hc (h1 f (by simp)).2

theorem parseIPv4_isSome_iff (s : List Nat) :
    (parseIPv4 s).isSome = true ↔ isDottedDecimalIPv4 s := by
  by_cases hs : s = []
  · subst hs
    constructor
    · intro h; revert h; decide
    · intro h; revert h; decide
  · have hM := parseIPv4Loop_fields s (Split s 46) [] 0 [] (Split_ne_nil s 46)
      (not_mem_of_mem_Split s 46) (by rw [Join_Split]; exact hs) (by rw [Join_Split]; rfl)
      (Or.inl rfl) (by omega)
    rw [Join_Split] at hM
    unfold parseIPv4 isDottedDecimalIPv4
    simp only [List.length_nil] at hM
    rw [hM]
    by_cases hC : (∀ f ∈ Split s 46, isDecimalOctet f) ∧ 0 + (Split s 46).length ≤ 4
    · rw [if_pos hC]
      simp only
      by_cases h3 : 0 + (Split s 46).length - 1 < 3
      · rw [if_pos h3]
        simp only [Option.isSome_none, Bool.false_eq_true, false_iff]
        rintro ⟨h4, _⟩
        omega
      · rw [if_neg h3]
        simp only [Option.isSome_some, true_iff]
        exact ⟨by omega, hC.1⟩
    · rw [if_neg hC]
      simp only [Option.isSome_none, Bool.false_eq_true, false_iff]
      rintro ⟨h4, h5⟩
      exact hC ⟨h5, by omega⟩

theorem ParseIPFrom_eq_some_no_colon (parseIPv6 : List Nat → Option (List Nat)) (s : List Nat) :
    ∀ (rest r : List Nat), 58 ∉ rest → ParseIPFrom parseIPv6 s rest = some r →
      parseIPv4 s = some r := by
  intro rest
  induction rest with
  | nil => intro r _ h; simp [ParseIPFrom] at h
  | cons c rest ih =>
    intro r hc h
    have hc58 : c ≠ 58 := fun e => hc (by simp [e])
    have hr58 : 58 ∉ rest := fun e => hc (List.mem_cons_of_mem _ e)
    rw [ParseIPFrom] at h
    by_cases h1 : c = 46
    · rw [if_pos h1] at h; exact h
    · rw [if_neg h1, if_neg hc58] at h
      by_cases h2 : c = 37
      · rw [if_pos h2] at h; cases h
      · rw [if_neg h2] at h
        exact ih r hr58 h

theorem ParseIPFrom_digits_dots (parseIPv6 : List Nat → Option (List Nat)) (s : List Nat) :
    ∀ (rest : List Nat), (∀ c ∈ rest, (48 ≤ c ∧ c ≤ 57) ∨ c = 46) → 46 ∈ rest →
      ParseIPFrom parseIPv6 s rest = parseIPv4 s := by
  intro rest
  induction rest with
  | nil => intro _ h; simp at h
  | cons c rest ih =>
    intro hall hdot
    rw [ParseIPFrom]
    by_cases h1 : c = 46
    · rw [if_pos h1]
    · have hcd : 48 ≤ c ∧ c ≤ 57 := by
        rcases hall c (by simp) with h | h
        · exact h
        · exact absurd h h1
      rw [if_neg h1, if_neg (by omega), if_neg (by omega)]
      refine ih (fun x hx => hall x (List.mem_cons_of_mem _ hx)) ?_
      rcases List.mem_cons.mp hdot with e | e
      · exact absurd e.symm h1
      · exact e

theorem mem_Join (sep c : Nat) :
    ∀ ls : List (List Nat), c ∈ Join ls sep → c = sep ∨ ∃ f ∈ ls, c ∈ f := by
  intro ls
  induction ls with
  | nil => intro h; simp [Join] at h
  | cons l ls ih =>
    intro h
    cases ls with
    | nil => exact Or.inr ⟨l, by simp, by simpa [Join] using h⟩
    | cons q qs =>
      rw [Join_cons_cons] at h
      rcases List.mem_append.mp h with h1 | h1
      · exact Or.inr ⟨l, by simp, h1⟩
      · rcases List.mem_cons.mp h1 with h2 | h2
        · exact Or.inl h2
        · rcases ih h2 with h3 | ⟨f, hf, hcf⟩
          · exact Or.inl h3
          · exact Or.inr ⟨f, List.mem_cons_of_mem _ hf, hcf⟩

theorem isDottedDecimalIPv4_chars {s : List Nat} (h : isDottedDecimalIPv4 s) :
    (∀ c ∈ s, (48 ≤ c ∧ c ≤ 57) ∨ c = 46) ∧ 46 ∈ s := by
  constructor
  · intro c hc
    rw [← Join_Split s 46] at hc
    rcases mem_Join 46 c _ hc with h1 | ⟨f, hf, hcf⟩
    · exact Or.inr h1
    · exact Or.inl ((h.2 f hf).2.1 c hcf)
  · have h1 := Split_length s 46
    rw [h.1] at h1
    apply List.count_pos_iff.mp
    unfold Count at h1
    omega

theorem ParseIP_isSome_iff (parseIPv6 : List Nat → Option (List Nat)) (s : List Nat)
    (hc : 58 ∉ s) : (ParseIP parseIPv6 s).isSome = true ↔ isDottedDecimalIPv4 s := by
  constructor
  · intro h
    obtain ⟨r, hr⟩ := Option.isSome_iff_exists.mp h
    have := ParseIPFrom_eq_some_no_colon parseIPv6 s s r hc hr
    exact (parseIPv4_isSome_iff s).mp (by rw [this]; rfl)
  · intro h
    obtain ⟨h1, h2⟩ := isDottedDecimalIPv4_chars h
    unfold ParseIP
    rw [ParseIPFrom_digits_dots parseIPv6 s s h1 h2]
    exact (parseIPv4_isSome_iff s).mpr h

theorem isCookieDomainName_of_head_ne (s : List Nat) (h : s.head? ≠ some 46) :
    isCookieDomainName s = false := by
  cases s with
  | nil => rfl
  | cons s0 t =>
    have h0 : s0 ≠ 46 := by simpa using h
    rw [isCookieDomainName_cons]
    split_ifs <;> rfl

theorem ValidDomain_iff_IPv4_of_head_ne (parseIPv6 : List Nat → Option (List Nat))
    (s : List Nat) (h : s.head? ≠ some 46) :
    ValidDomain parseIPv6 s = true ↔ isDottedDecimalIPv4 s := by
  unfold ValidDomain
  rw [isCookieDomainName_of_head_ne s h]
  simp only [Bool.false_eq_true, if_false]
  by_cases hc : 58 ∈ s
  · have h1 : ¬ isDottedDecimalIPv4 s := by
      intro hd
      rcases (isDottedDecimalIPv4_chars hd).1 58 hc with h2 | h2 <;> omega
    simp [Contains, hc, h1]
  · have := ParseIP_isSome_iff parseIPv6 s hc
    simp [Contains, hc, this]

/-- C11. For every candidate string `s` that does not begin with `'.'`,
`ValidDomain(s)` is true if and only if `s` is a dotted-decimal IPv4 address
literal, which is the only form `net.ParseIP` accepts among the strings
without `':'`.  So the empty string, every string without a dot and a host
name such as `"example.com"` are rejected, while `"192.168.1.1"` is
accepted. -/
theorem ValidDomain_iff_IPv4 (parseIPv6 : List Nat → Option (List Nat)) (s : List Nat)
    (h : s.head? ≠ some 46) :
    (ValidDomain parseIPv6 s = true ↔ isDottedDecimalIPv4 s) ∧
    (58 ∉ s → ((ParseIP parseIPv6 s).isSome = true ↔ isDottedDecimalIPv4 s)) ∧
    ValidDomain parseIPv6 [] = false ∧
    (46 ∉ s → ValidDomain parseIPv6 s = false) ∧
    ValidDomain parseIPv6 (bytes "example.com") = false ∧
    ValidDomain parseIPv6 (bytes "192.168.1.1") = true := by
  have key := ValidDomain_iff_IPv4_of_head_ne parseIPv6
  have no : ∀ t : List Nat, t.head? ≠ some 46 → ¬ isDottedDecimalIPv4 t →
      ValidDomain parseIPv6 t = false := by
    intro t ht hd
    cases hv : ValidDomain parseIPv6 t with
    | false => rfl
    | true => exact absurd ((key t ht).mp hv) hd
  refine ⟨key s h, ParseIP_isSome_iff parseIPv6 s, no [] (by simp) (by decide), ?_,
    no _ (by decide) (by decide), (key _ (by decide)).mpr (by decide)⟩
  intro hdot
  apply no s h
  intro hd
  exact hdot (isDottedDecimalIPv4_chars hd).2

theorem ValidDomain_iff_IPv4_witness :
    (bytes "192.168.1.1").head? ≠ some 46 ∧
    (ValidDomain (fun _ => none) (bytes "192.168.1.1") = true ↔
      isDottedDecimalIPv4 (bytes "192.168.1.1")) :=
  ⟨by decide, (ValidDomain_iff_IPv4 (fun _ => none) (bytes "192.168.1.1") (by decide)).1⟩

/-! ## Paths without a trailing slash -/

theorem segments_nil : segments [] = [] := by
  simp [segments, Split]

theorem segments_cons_slash (t : List Nat) : segments (47 :: t) = segments t := by
  unfold segments
  rw [Split_cons_sep, List.filter_cons_of_neg (by simp)]

theorem segments_append_of_head (tw dw : List Nat) (htw : tw ≠ []) (hs : 47 ∉ tw)
    (hdw : dw = [] ∨ dw.head? = some 47) : segments (tw ++ dw) = tw :: segments dw := by
  rcases hdw with rfl | h
  · rw [List.append_nil, segments_nil]
    unfold segments
    rw [Split_of_not_mem tw 47 hs]
    simp [List.filter_cons, htw]
  · obtain ⟨r, rfl⟩ : ∃ r, dw = 47 :: r := by
      cases dw with
      | nil => simp at h
      | cons d r =>
        simp only [List.head?_cons, Option.some.injEq] at h
        exact ⟨r, by rw [h]⟩
    rw [segments_cons_slash]
    unfold segments
    rw [Split_append_sep tw r 47 hs]
    simp [List.filter_cons, htw]

theorem takeWhile_ne_slash_not_mem (l : List Nat) :
    47 ∉ l.takeWhile (fun b => decide (b ≠ 47)) := by
  intro h
  have := List.mem_takeWhile_imp h
  simp at this

theorem segments_cons_of_ne (c : Nat) (t : List Nat) (hc : c ≠ 47) :
    segments (c :: t) = (c :: t).takeWhile (fun b => decide (b ≠ 47)) ::
      segments ((c :: t).dropWhile (fun b => decide (b ≠ 47))) := by
  have hne : (c :: t).takeWhile (fun b => decide (b ≠ 47)) ≠ [] := by
    rw [List.takeWhile_cons]
    simp [hc]
  have h := segments_append_of_head _ _ hne (takeWhile_ne_slash_not_mem (c :: t))
    (dropWhile_ne_slash_head (c :: t))
  rw [List.takeWhile_append_dropWhile] at h
  exact h

theorem slash_Join_snoc_rooted (rooted : Bool) (done : List (List Nat)) (seg : List Nat)
    (hdone : ∀ s ∈ done, isCleanSegment s) :
    (if (rooted && decide (((if rooted then [47] else []) ++ Join done 47).length ≠ 1)) ||
        (!rooted && decide (((if rooted then [47] else []) ++ Join done 47).length ≠ 0))
      then ((if rooted then [47] else []) ++ Join done 47) ++ [47]
      else (if rooted then [47] else []) ++ Join done 47) ++ seg
      = (if rooted then [47] else []) ++ Join (done ++ [seg]) 47 := by
  cases rooted with
  | true => exact slash_Join_snoc done seg hdone
  | false =>
    by_cases hd : done = []
    · subst hd
      simp [Join]
    · have hne := Join_ne_nil done 47 hd (fun s hs => (hdone s hs).1)
      rw [Join_append_singleton done seg 47 hd]
      simp [hne]

theorem cleanLoop_clean_segments (rooted : Bool) (dotdot : Nat) :
    ∀ (fuel : Nat) (rest : List Nat) (done : List (List Nat)), rest.length ≤ fuel →
      (∀ s ∈ segments rest, isCleanSegment s) → (∀ s ∈ done, isCleanSegment s) →
      cleanLoop rooted fuel rest ((if rooted then [47] else []) ++ Join done 47) dotdot =
        Outcome.ok ((if rooted then [47] else []) ++ Join (done ++ segments rest) 47) := by
  intro fuel
  induction fuel with
  | zero =>
    intro rest done hf _ _
    have : rest = [] := List.length_eq_zero.mp (by omega)
    subst this
    rw [cleanLoop_nil, segments_nil, List.append_nil]
  | succ fuel ih =>
    intro rest done hf hsegs hdone
    cases rest with
    | nil => rw [cleanLoop_nil, segments_nil, List.append_nil]
    | cons c t =>
      simp only [List.length_cons] at hf
      by_cases hc : c = 47
      · subst hc
        rw [cleanLoop_succ_cons, if_pos rfl, segments_cons_slash]
        rw [segments_cons_slash] at hsegs
        exact ih t done (by omega) hsegs hdone
      · have hseg := segments_cons_of_ne c t hc
        have htd := (List.takeWhile_append_dropWhile (fun b => decide (b ≠ 47)) (c :: t)).symm
        have hlen := length_takeWhile_add_dropWhile (fun b => decide (b ≠ 47)) (c :: t)
        have htwpos : 1 ≤ ((c :: t).takeWhile (fun b => decide (b ≠ 47))).length := by
          rw [List.takeWhile_cons]
          simp [hc]
        simp only [List.length_cons] at hlen
        rw [hseg] at hsegs ⊢
        have hclean := hsegs _ (List.mem_cons_self _ _)
        conv_lhs => rw [htd]
        rw [cleanLoop_segment rooted fuel _ _ _ dotdot hclean (dropWhile_ne_slash_head (c :: t)),
          slash_Join_snoc_rooted rooted done _ hdone,
          ih _ (done ++ [(c :: t).takeWhile (fun b => decide (b ≠ 47))]) (by omega)
            (fun s hs => hsegs s (List.mem_cons_of_mem _ hs))
            (fun s hs => by
              rcases List.mem_append.mp hs with h | h
              · exact hdone s h
              · rw [List.mem_singleton.mp h]; exact hclean)]
        simp

theorem Split_append_sep_last (pre l : List Nat) (sep : Nat) :
    Split (pre ++ sep :: l) sep = Split pre sep ++ Split l sep := by
  induction pre with
  | nil => simp [Split]
  | cons c pre ih =>
    by_cases hc : c = sep
    · subst hc
      rw [List.cons_append, Split_cons_sep, Split_cons_sep, ih, List.cons_append]
    · obtain ⟨p, ps, hs⟩ := Split_exists_cons pre sep
      rw [hs] at ih
      rw [List.cons_append, Split_cons_ne hc ih, Split_cons_ne hc hs]
      rfl

theorem segments_append_slash_last (pre l : List Nat) (hl : l ≠ []) (hs : 47 ∉ l) :
    segments (pre ++ 47 :: l) = segments pre ++ [l] := by
  unfold segments
  rw [Split_append_sep_last, Split_of_not_mem l 47 hs, List.filter_append]
  simp [List.filter_cons, hl]

theorem segments_append_slash (pre : List Nat) : segments (pre ++ [47]) = segments pre := by
  unfold segments
  rw [Split_append_singleton_sep, List.filter_append]
  simp

theorem segments_of_not_mem (p : List Nat) (hp : p ≠ []) (hs : 47 ∉ p) : segments p = [p] := by
  unfold segments
  rw [Split_of_not_mem p 47 hs]
  simp [List.filter_cons, hp]

theorem segments_ne_nil_of_head_ne (p : List Nat) (hp : p ≠ []) (hh : p.head? ≠ some 47) :
    segments p ≠ [] := by
  obtain ⟨c, t, rfl⟩ := List.exists_cons_of_ne_nil hp
  have hc : c ≠ 47 := by simpa using hh
  rw [segments_cons_of_ne c t hc]
  simp

theorem segments_Join (segs : List (List Nat)) (hne : segs ≠ [])
    (hsegs : ∀ s ∈ segs, isCleanSegment s) : segments (Join segs 47) = segs := by
  unfold segments
  rw [Split_Join segs 47 hne (fun p hp => (hsegs p hp).2.1)]
  apply List.filter_eq_self.mpr
  intro s hs
  simpa using (hsegs s hs).1

theorem Join_getLast?_ne_slash (segs : List (List Nat)) (hne : segs ≠ [])
    (hsegs : ∀ s ∈ segs, isCleanSegment s) (pfx : List Nat) :
    (pfx ++ Join segs 47).getLast? ≠ some 47 := by
  obtain ⟨init, l, rfl⟩ := exists_append_singleton_of_ne_nil segs hne
  have hl := hsegs l (by simp)
  have hj : ∃ q, Join (init ++ [l]) 47 = q ++ l := by
    by_cases hi : init = []
    · subst hi; exact ⟨[], by simp [Join]⟩
    · exact ⟨Join init 47 ++ [47], by rw [Join_append_singleton init l 47 hi]; simp⟩
  obtain ⟨q, hq⟩ := hj
  rw [hq, ← List.append_assoc, List.getLast?_append_of_ne_nil _ hl.1]
  intro h
  exact hl.2.1 (List.mem_of_getLast?_eq_some h)

theorem Clean_clean_segments (fuel : Nat) (p : List Nat) (hp : p ≠ []) (hf : p.length ≤ fuel)
    (hsegs : ∀ s ∈ segments p, isCleanSegment s) :
    Clean fuel p =
      Outcome.ok (if p.head? = some 47 then 47 :: Join (segments p) 47
        else Join (segments p) 47) := by
  obtain ⟨c, t, rfl⟩ := List.exists_cons_of_ne_nil hp
  unfold Clean
  rw [if_neg hp]
  simp only [List.length_cons] at hf
  by_cases hr : (c :: t).head? = some 47
  · have hc : c = 47 := by simpa using hr
    subst hc
    rw [segments_cons_slash] at hsegs ⊢
    have h := cleanLoop_clean_segments true 1 fuel t [] (by omega) hsegs (by simp)
    simp only [if_true, Join, List.append_nil, List.nil_append] at h
    rw [if_pos hr, if_pos hr]
    simp only [List.drop_succ_cons, List.drop_zero]
    rw [h]
    simp
  · have h := cleanLoop_clean_segments false 0 fuel (c :: t) [] (by simpa using hf) hsegs
      (by simp)
    simp only [Bool.false_eq_true, if_false, Join, List.append_nil, List.nil_append] at h
    rw [if_neg hr, if_neg hr, h]
    have hne := Join_ne_nil (segments (c :: t)) 47 (segments_ne_nil_of_head_ne _ hp hr)
      (fun s hs => (hsegs s hs).1)
    have : (Join (segments (c :: t)) 47).length ≠ 0 := fun e => hne (List.length_eq_zero.mp e)
    simp [this]

theorem Dir_no_trailing_slash (fuel : Nat) (p : List Nat) (hf : p.length ≤ fuel)
    (hstop : ¬ (p = [] ∨ p = [46] ∨ p = [47]))
    (hsegs : ∀ s ∈ segments p, isCleanSegment s) (hlast : p.getLast? ≠ some 47) :
    ∃ d, Dir fuel p = Outcome.ok d ∧ d.length ≤ p.length ∧
      ((d = [46] ∧ (segments p).length = 1) ∨
       ((∀ s ∈ segments d, isCleanSegment s) ∧ (d = [47] ∨ d.getLast? ≠ some 47) ∧
          (segments d).length + 1 = (segments p).length)) := by
  have hpne : p ≠ [] := fun e => hstop (Or.inl e)
  have hdlen : ∀ d, Dir fuel p = Outcome.ok d → d.length ≤ p.length := by
    intro d hd
    obtain ⟨d', hd', hcase⟩ := Dir_bound fuel p hf hstop
    rw [hd] at hd'
    obtain rfl := Outcome.ok.inj hd'
    have := List.length_pos.mpr hpne
    rcases hcase with rfl | h
    · simpa using this
    · omega
  by_cases hs : 47 ∈ p
  · obtain ⟨pre, l, rfl, hl⟩ := exists_last_occurrence p 47 hs
    have hlne : l ≠ [] := by
      intro e; subst e
      exact hlast (by simp)
    have hsp := segments_append_slash_last pre l hlne hl
    rw [hsp] at hsegs
    have hpre : ∀ s ∈ segments pre, isCleanSegment s :=
      fun s hs' => hsegs s (List.mem_append_left _ hs')
    have hdir : Dir fuel (pre ++ 47 :: l) = Clean fuel (pre ++ [47]) := by
      unfold Dir
      rw [dirPart_append_cons pre l hl]
    have hlen1 : (pre ++ [47]).length ≤ fuel := by
      simp only [List.length_append, List.length_cons, List.length_nil] at hf ⊢
      omega
    have hC := Clean_clean_segments fuel (pre ++ [47]) (by simp) hlen1
      (by rw [segments_append_slash]; exact hpre)
    rw [segments_append_slash] at hC
    rw [← hdir] at hC
    refine ⟨_, hC, hdlen _ hC, Or.inr ?_⟩
    rw [hsp]
    by_cases hr : (pre ++ [47]).head? = some 47
    · rw [if_pos hr]
      refine ⟨?_, ?_, ?_⟩
      · rw [segments_clean_path _ hpre]; exact hpre
      · by_cases he : segments pre = []
        · left; rw [he]; rfl
        · right
          exact Join_getLast?_ne_slash _ he hpre [47]
      · rw [segments_clean_path _ hpre]; simp
    · rw [if_neg hr]
      have hprene : pre ≠ [] := by
        intro e; subst e; simp at hr
      have hprehead : pre.head? ≠ some 47 := by
        intro e
        apply hr
        obtain ⟨c, t, rfl⟩ := List.exists_cons_of_ne_nil hprene
        simpa using e
      have hne := segments_ne_nil_of_head_ne pre hprene hprehead
      refine ⟨?_, ?_, ?_⟩
      · rw [segments_Join _ hne hpre]; exact hpre
      · right
        have := Join_getLast?_ne_slash _ hne hpre []
        simpa using this
      · rw [segments_Join _ hne hpre]; simp
  · have hdir : Dir fuel p = Outcome.ok [46] := by
      unfold Dir
      rw [dirPart_of_not_mem p hs, Clean_nil]
    refine ⟨_, hdir, hdlen _ hdir, Or.inl ⟨rfl, ?_⟩⟩
    rw [segments_of_not_mem p hpne hs]
    rfl

theorem pathLoop_length (fuel : Nat) :
    ∀ (n : Nat) (paths : List (List Nat)) (p : List Nat) (P : List (List Nat)) (k : Nat),
      p.length ≤ fuel →
      ((p = [46] ∧ k = 0) ∨
        ((∀ s ∈ segments p, isCleanSegment s) ∧ (p = [47] ∨ p.getLast? ≠ some 47) ∧
          k = (segments p).length)) →
      pathLoop fuel n paths p = Outcome.ok P → P.length = paths.length + k := by
  intro n
  induction n with
  | zero => intro paths p P k _ _ h; simp [pathLoop] at h
  | succ n ih =>
    intro paths p P k hf hk h
    rw [pathLoop] at h
    by_cases hstop : p = [] ∨ p = [46] ∨ p = [47]
    · rw [if_pos hstop] at h
      obtain rfl := Outcome.ok.inj h
      have hk0 : k = 0 := by
        rcases hk with ⟨_, h0⟩ | ⟨hc, _, h0⟩
        · exact h0
        · rcases hstop with rfl | rfl | rfl
          · rw [h0, segments_nil]; rfl
          · exfalso
            have := hc [46] (by decide)
            exact this.2.2.1 rfl
          · rw [h0]; rfl
      omega
    · rw [if_neg hstop] at h
      obtain ⟨hc, hl, hkeq⟩ : (∀ s ∈ segments p, isCleanSegment s) ∧
          (p = [47] ∨ p.getLast? ≠ some 47) ∧ k = (segments p).length := by
        rcases hk with ⟨h0, _⟩ | h0
        · exact absurd (Or.inr (Or.inl h0)) hstop
        · exact h0
      have hlast : p.getLast? ≠ some 47 := by
        rcases hl with h0 | h0
        · exact absurd (Or.inr (Or.inr h0)) hstop
        · exact h0
      obtain ⟨d, hd, hdlen, hcase⟩ := Dir_no_trailing_slash fuel p hf hstop hc hlast
      rw [hd] at h
      simp only at h
      rcases hcase with ⟨rfl, h1⟩ | ⟨h1, h2, h3⟩
      · have := ih (paths ++ [p]) [46] P 0 (by omega) (Or.inl ⟨rfl, rfl⟩) h
        rw [this, hkeq, h1]
        simp
      · have := ih (paths ++ [p]) d P (segments d).length (by omega) (Or.inr ⟨h1, h2, rfl⟩) h
        rw [this, hkeq, ← h3]
        simp only [List.length_append, List.length_singleton]
        omega

theorem mem_segments {p s : List Nat} (h : s ∈ segments p) : s ≠ [] ∧ 47 ∉ s := by
  unfold segments at h
  obtain ⟨h1, h2⟩ := List.mem_filter.mp h
  exact ⟨by simpa using h2, not_mem_of_mem_Split p 47 s h1⟩

theorem pathLoop_prefix (fuel : Nat) :
    ∀ (n : Nat) (paths : List (List Nat)) (p : List Nat) (P : List (List Nat)),
      pathLoop fuel n paths p = Outcome.ok P → ∃ more, P = paths ++ more := by
  intro n
  induction n with
  | zero => intro paths p P h; simp [pathLoop] at h
  | succ n ih =>
    intro paths p P h
    rw [pathLoop] at h
    by_cases hstop : p = [] ∨ p = [46] ∨ p = [47]
    · rw [if_pos hstop] at h
      exact ⟨[], by rw [← Outcome.ok.inj h]; simp⟩
    · rw [if_neg hstop] at h
      cases hd : Dir fuel p with
      | ok d =>
        rw [hd] at h
        obtain ⟨more, hm⟩ := ih _ _ _ h
        exact ⟨p :: more, by rw [hm]; simp⟩
      | panicked => rw [hd] at h; cases h
      | outOfFuel => rw [hd] at h; cases h

/-- A segment `"."` or `".."`, or a trailing slash after the root, changes the
number of path variants.  `"."` has one segment
and two entries, `"/a/../b"` three segments and three entries, `"//"` no
segment and three entries. -/
theorem pathVariants_length_other_failures :
    (pathVariants 10 (bytes ".") = Outcome.ok [[], bytes "/"] ∧
      (segments (bytes ".")).length = 1) ∧
    (pathVariants 10 (bytes "/a/../b") = Outcome.ok [[], bytes "/", bytes "/a/../b"] ∧
      (segments (bytes "/a/../b")).length = 3) ∧
    (pathVariants 10 (bytes "//") = Outcome.ok [[], bytes "/", bytes "//"] ∧
      (segments (bytes "//")).length = 0) := by
  decide

/-- C8, amended. For every request path `p` that has no segment `"."` or
`".."` and does not end in `'/'` (the root path `"/"` apart), with `k`
slash-separated segments (the non-empty strings between its slashes), the
path-variant list built by `DeepDelete` has exactly `k + 2` entries, counting
the two fixed leading entries `""` and `"/"`.  This covers the empty path,
relative and absolute paths, and paths with repeated slashes. -/
theorem pathVariants_length_no_trailing_slash (fuel : Nat) (p : List Nat)
    (hf : p.length + 1 ≤ fuel)
    (hsegs : ∀ s ∈ segments p, s ≠ [46] ∧ s ≠ [46, 46])
    (hlast : p = [47] ∨ p.getLast? ≠ some 47) :
    ∃ P, pathVariants fuel p = Outcome.ok P ∧ P.length = (segments p).length + 2 ∧
      P[0]? = some [] ∧ P[1]? = some [47] := by
  obtain ⟨P, hP⟩ := pathVariants_ok fuel p hf
  refine ⟨P, hP, ?_, ?_⟩
  · unfold pathVariants at hP
    have := pathLoop_length fuel fuel [[], [47]] p P (segments p).length (by omega)
      (Or.inr ⟨fun s hs => ⟨(mem_segments hs).1, (mem_segments hs).2, (hsegs s hs).1,
        (hsegs s hs).2⟩, hlast, rfl⟩) hP
    rw [this]
    simp only [List.length_cons, List.length_nil]
    omega
  · unfold pathVariants at hP
    obtain ⟨more, rfl⟩ := pathLoop_prefix fuel fuel _ p P hP
    exact ⟨by simp, by simp⟩

theorem pathVariants_length_no_trailing_slash_witness :
    (∃ P, pathVariants 10 (bytes "a/b") = Outcome.ok P ∧
      P.length = (segments (bytes "a/b")).length + 2 ∧
      P[0]? = some [] ∧ P[1]? = some [47]) ∧
    (∃ P, pathVariants 10 (bytes "") = Outcome.ok P ∧
      P.length = (segments (bytes "")).length + 2 ∧
      P[0]? = some [] ∧ P[1]? = some [47]) ∧
    (∃ P, pathVariants 18 (bytes "/account/settings") = Outcome.ok P ∧
      P.length = (segments (bytes "/account/settings")).length + 2 ∧
      P[0]? = some [] ∧ P[1]? = some [47]) ∧
    (segments (bytes "a/b")).length = 2 ∧ (segments (bytes "")).length = 0 ∧
    (segments (bytes "/account/settings")).length = 2 :=
  ⟨pathVariants_length_no_trailing_slash 10 (bytes "a/b") (by decide) (by decide) (by decide),
    pathVariants_length_no_trailing_slash 10 (bytes "") (by decide) (by decide) (by decide),
    pathVariants_length_no_trailing_slash 18 (bytes "/account/settings") (by decide)
      (by decide) (by decide),
    by decide, by decide, by decide⟩

end CookiePkg
